import Mathlib

/-!
fileChangeTracker: the snapshot and diff engine of `record.go`.

A shallow embedding of `record.go`.  Go strings and byte slices are byte
sequences, so both are lists of `UInt8`.  A Go `map[string][]byte` is a finite
list of entries with pairwise distinct keys; the order of the list stands for the
order in which a `range` loop happens to enumerate the map.  Code that can panic
returns an `Option`, `none` standing for the panic.  The file system, the clock,
the digest function and the library routines `time.Parse` and `filepath.Join`
are explicit arguments.
-/

namespace FileChangeTracker

/-- A Go string or byte slice. -/
abbrev Bytes := List UInt8

/-- The bytes of an ASCII literal. -/
def ascii (s : String) : Bytes := s.toList.map (fun c => c.toNat.toUInt8)

/-- The constant `seperator = " "` of `record.go`: the one-byte string 0x20. -/
def seperator : UInt8 := 32

/-- The line feed byte. -/
def newline : UInt8 := 10

/-- The carriage return byte. -/
def carriageReturn : UInt8 := 13

/-! ## The store: `type store map[string][]byte` -/

/-- The map `store`: entries with pairwise distinct keys. -/
structure store where
  entries : List (Bytes × Bytes)
  nodup : (entries.map Prod.fst).Nodup

namespace store

/-- Stores with the same entries in the same order are the same store. -/
instance : DecidableEq store := fun a b =>
  decidable_of_iff (a.entries = b.entries)
    ⟨fun h => by cases a; cases b; cases h; rfl, fun h => h ▸ rfl⟩

/-- The literal `store{}`. -/
def empty : store := ⟨[], List.nodup_nil⟩

/-- The lookup `v, ok := s[k]`. -/
def get? (s : store) (k : Bytes) : Option Bytes :=
  (s.entries.find? (fun e => e.1 == k)).map Prod.snd

/-- The key set membership test `_, ok := s[k]`. -/
def contains (s : store) (k : Bytes) : Bool := (s.get? k).isSome

/-- The assignment `s[k] = v`: the entry of `k` is replaced, or a new one made. -/
def set (s : store) (k v : Bytes) : store :=
  ⟨(k, v) :: s.entries.filter (fun e => !(e.1 == k)), by
    simp only [List.map_cons, List.nodup_cons, List.mem_map, List.mem_filter]
    refine ⟨?_, s.nodup.sublist ((List.filter_sublist s.entries).map Prod.fst)⟩
    rintro ⟨e, ⟨_, he⟩, rfl⟩
    simp at he⟩

/-- Two stores are equal as maps: the same keys, each with the same bytes. -/
def Equiv (s t : store) : Prop := ∀ k, s.get? k = t.get? k

end store

/-! ## Library routines used by `record.go` -/

/-- The call `strings.Split(s, sep)` for a one-byte separator: the pieces of `s`
between consecutive separators, one more than there are separators. -/
def stringsSplit : Bytes → UInt8 → List Bytes
  | [], _ => [[]]
  | c :: cs, sep =>
    if c = sep then [] :: stringsSplit cs sep
    else
      match stringsSplit cs sep with
      | [] => [[c]]
      | f :: fs => (c :: f) :: fs

/-- The call `strings.Contains(s, substr)`. -/
def stringsContains (s substr : Bytes) : Bool :=
  s.tails.any (fun t => substr.isPrefixOf t)

/-- The constant `bufio.MaxScanTokenSize`: the scanner's buffer holds at most
this many bytes, the line terminator included. -/
def maxScanTokenSize : Nat := 64 * 1024

/-- The helper `dropCR` of `bufio.ScanLines`: one trailing carriage return goes. -/
def dropCR (data : Bytes) : Bytes :=
  if data.getLast? = some carriageReturn then data.dropLast else data

/-- The tokens `bufio.Scanner` yields with `ScanLines`: `cur` holds, reversed, the
bytes of the current line read so far.  A line is cut at its line feed; the last
line needs none, unless it is empty.  When the buffer is full (`maxScanTokenSize`
bytes) and holds no line feed, `Scan` returns false (`ErrTooLong`) and the
remaining input is never read. -/
def scanLinesAux : Bytes → Bytes → List Bytes
  | [], cur =>
    if cur = [] then []
    else if cur.length < maxScanTokenSize then [dropCR cur.reverse] else []
  | c :: cs, cur =>
    if c = newline then
      if cur.length < maxScanTokenSize then dropCR cur.reverse :: scanLinesAux cs []
      else []
    else scanLinesAux cs (c :: cur)

/-- The lines `scanner.Text()` returns, one per successful `scanner.Scan()`. -/
def scanLines (data : Bytes) : List Bytes := scanLinesAux data []

/-! ## The file system, as far as `record.go` observes it -/

/-- What the program reads from the disk.  `readDir d` is the result of
`ioutil.ReadDir(d)`: the names of the entries in the order returned, `none` when
the call fails.  `fileBytes p` is the byte stream a reader of `os.Open(p)` delivers,
`none` when the file cannot be opened.  `creatable p` tells whether
`os.Create(p)` succeeds. -/
structure FileSys where
  readDir : Bytes → Option (List Bytes)
  fileBytes : Bytes → Option Bytes
  creatable : Bytes → Bool

/-! ## `saveToFile` and `openFromFile` -/

/-- The bytes the loop of `saveToFile` writes: per entry the path, the
separator, the digest bytes and a line feed. -/
def snapshotBytes (data : store) : Bytes :=
  data.entries.foldl
    (fun out e => out ++ e.1 ++ [seperator] ++ e.2 ++ [newline]) []

/-- The comparison `a < b` of two Go strings: byte-wise, lexicographic. -/
def stringLess : Bytes → Bytes → Bool
  | [], [] => false
  | [], _ :: _ => true
  | _ :: _, [] => false
  | a :: as, b :: bs =>
    if a.toNat < b.toNat then true
    else if b.toNat < a.toNat then false
    else stringLess as bs

/-- The listing of a directory after a file `name` was created in it:
`ioutil.ReadDir` sorts by file name, byte-wise, and a name already there stays
where it is. -/
def insertName (name : Bytes) : List Bytes → List Bytes
  | [] => [name]
  | n :: ns =>
    if name = n then n :: ns
    else if stringLess name n then name :: n :: ns
    else n :: insertName name ns

/-- The function `saveToFile`; `stamp` is `time.Now().Format(time.RFC3339)`.
`os.Create` truncates an existing file; when it fails every write fails too and
the disk stays as it was. -/
def saveToFile (join : Bytes → Bytes → Bytes) (stamp : Bytes) (data : store)
    (dotFreezeVersions : Bytes) (fs : FileSys) : FileSys :=
  let savePath := join dotFreezeVersions stamp
  if fs.creatable savePath then
    { readDir := fun d =>
        if d = dotFreezeVersions then
          (fs.readDir d).map (insertName stamp)
        else fs.readDir d
      fileBytes := fun p => if p = savePath then some (snapshotBytes data) else fs.fileBytes p
      creatable := fs.creatable }
  else fs

/-- The body of the loop of `openFromFile` for one line: `lineSplit[1]` panics
with an index out of range when the line holds no separator. -/
def loadLine (s : store) (line : Bytes) : Option store :=
  match stringsSplit line seperator with
  | k :: d :: _ => some (s.set k d)
  | _ => none

/-- The loop of `openFromFile` over the bytes of the file. -/
def readStore (content : Bytes) : Option store :=
  (scanLines content).foldlM loadLine store.empty

/-- The function `openFromFile`: a file that cannot be opened yields no line
(the error of `os.Open` is dropped and the scanner reads nothing). -/
def openFromFile (fs : FileSys) (path : Bytes) : Option store :=
  readStore ((fs.fileBytes path).getD [])

/-! ## `openMostRecent` -/

/-- The loop of `openMostRecent`.  An instant is an integer, the zero `time.Time`
being 0; `parse` is `time.Parse(time.RFC3339, ·)`, whose error is dropped, the
result then being the zero time.  The state is `(latestTime, latestFileInfo)`,
`none` being the nil `os.FileInfo`. -/
def latestLoop (parse : Bytes → Option Int) (files : List Bytes) : Int × Option Bytes :=
  files.foldl
    (fun acc name =>
      let curTime := (parse name).getD 0
      if curTime > acc.1 then (curTime, some name) else acc)
    (0, none)

/-- The function `openMostRecent`: `latestFileInfo.Name()` panics when no entry
was selected. -/
def openMostRecent (parse : Bytes → Option Int) (join : Bytes → Bytes → Bytes)
    (fs : FileSys) (path : Bytes) : Option store :=
  let files := (fs.readDir path).getD []
  if files.length = 0 then some store.empty
  else
    match (latestLoop parse files).2 with
    | none => none
    | some name => openFromFile fs (join path name)

/-! ## `checkAndDisplayDiff` -/

/-- The escape sequence `"\033[31m"`. -/
def colorRed : Bytes := 27 :: ascii "[31m"

/-- The escape sequence `"\033[32m"`. -/
def colorGreen : Bytes := 27 :: ascii "[32m"

/-- The escape sequence `"\033[33m"`. -/
def colorYellow : Bytes := 27 :: ascii "[33m"

/-- The call `fmt.Println(a, b, c)` on three strings: the operands with a space
between them, then a line feed. -/
def println3 (a b c : Bytes) : Bytes := a ++ [32] ++ b ++ [32] ++ c ++ [newline]

/-- The line printed for a changed path. -/
def changedLine (p : Bytes) : Bytes := println3 colorYellow p (ascii "has been changed")

/-- The line printed for a deleted path. -/
def deletedLine (p : Bytes) : Bytes := println3 colorRed p (ascii "has been deleted")

/-- The line printed for an added path. -/
def addedLine (p : Bytes) : Bytes := println3 colorGreen p (ascii "has been added")

/-- The body of the first loop of `checkAndDisplayDiff`: what it prints for one
entry of `before`. -/
def diffBefore (after : store) (e : Bytes × Bytes) : Option Bytes :=
  match after.get? e.1 with
  | some afterHash => if e.2 ≠ afterHash then some (changedLine e.1) else none
  | none => some (deletedLine e.1)

/-- The body of the second loop of `checkAndDisplayDiff`: what it prints for
one entry of `after`. -/
def diffAfter (before : store) (e : Bytes × Bytes) : Option Bytes :=
  match before.get? e.1 with
  | some _ => none
  | none => some (addedLine e.1)

/-- The function `checkAndDisplayDiff`: the lines written to standard output,
one per `fmt.Println`, in the order written. -/
def checkAndDisplayDiff (before after : store) : List Bytes :=
  before.entries.filterMap (diffBefore after) ++ after.entries.filterMap (diffAfter before)

/-! ## `store.add` and `getFromCurrent` -/

mutual
/-- What `filepath.Walk` finds at a path: an entry that is no directory, with
the bytes `ioutil.ReadFile` returns for it and whether the read succeeds; a
directory, with whether its names can be listed and its entries in the order
walked; or nothing that `os.Lstat` can describe. -/
inductive Node where
  | file (data : Bytes) (readOk : Bool)
  | dir (listable : Bool) (children : Forest)
  | noStat
/-- The entries of a directory, each a name and what is found under it. -/
inductive Forest where
  | nil
  | cons (name : Bytes) (node : Node) (rest : Forest)
end

/-- One call of the walk function: its `path`, its `info` (`none` for a nil
`os.FileInfo`, else the value of `info.IsDir()`), the bytes
`ioutil.ReadFile(path)` returns, and whether that read succeeds. -/
structure Visit where
  path : Bytes
  info : Option Bool
  content : Bytes
  readOk : Bool

mutual
/-- The calls `filepath.Walk` makes for what lies at `path`, in order, given that
the walk function always returns nil. -/
def walk (join : Bytes → Bytes → Bytes) : Bytes → Node → List Visit
  | path, .file data readOk => [⟨path, some false, data, readOk⟩]
  | path, .dir listable children =>
    ⟨path, some true, [], false⟩ :: (if listable then walkChildren join path children else [])
  | path, .noStat => [⟨path, none, [], false⟩]
/-- The walk of the entries of the directory `path`. -/
def walkChildren (join : Bytes → Bytes → Bytes) : Bytes → Forest → List Visit
  | _, .nil => []
  | path, .cons name node rest =>
    walk join (join path name) node ++ walkChildren join path rest
end

/-- The method `store.add`; `sha1` is `sha1.Sum`.  `info.IsDir()` panics on a nil
`info`; the error of `ioutil.ReadFile` is dropped. -/
def store.add (sha1 : Bytes → Bytes) (s : store) (v : Visit) : Option store :=
  match v.info with
  | none => none
  | some isDir =>
    if isDir || stringsContains v.path (ascii "freezeVersions") then some s
    else some (s.set v.path (sha1 v.content))

/-- The function `getFromCurrent`, `tree` being what lies at `path`. -/
def getFromCurrent (sha1 : Bytes → Bytes) (join : Bytes → Bytes → Bytes)
    (tree : Node) (path : Bytes) : Option store :=
  (walk join path tree).foldlM (store.add sha1) store.empty

/-- The call `filepath.Join(dir, name)` for a clean, non-empty `dir` and a plain
`name`: the two with a slash between them. -/
def joinSlash (dir name : Bytes) : Bytes := dir ++ [47] ++ name

/-! ## Vocabulary of the statements -/

/-- How often the line `L` occurs in an output. -/
def occurrences (L : Bytes) (out : List Bytes) : Nat :=
  (out.filter (fun l => decide (l = L))).length

/-- How many lines of an output are about the path `p`: the numbers of its
changed, deleted and added lines. -/
def linesAbout (out : List Bytes) (p : Bytes) : Nat × Nat × Nat :=
  (occurrences (changedLine p) out, occurrences (deletedLine p) out,
    occurrences (addedLine p) out)

/-- An entry that the snapshot format carries unharmed: no separator and no line
feed in the path or in the digest, no carriage return at the end of the digest,
and a line that fits the scanner's buffer. -/
def Storable (e : Bytes × Bytes) : Prop :=
  seperator ∉ e.1 ∧ newline ∉ e.1 ∧ seperator ∉ e.2 ∧ newline ∉ e.2 ∧
    e.2.getLast? ≠ some carriageReturn ∧ e.1.length + 1 + e.2.length < maxScanTokenSize

/-- The lines of a file content: the pieces between its line feeds, a line feed
at the very end opening no further line. -/
def fileLines (content : Bytes) : List Bytes :=
  if (stringsSplit content newline).getLast? = some [] then
    (stringsSplit content newline).dropLast
  else stringsSplit content newline

/-! ## Concrete inputs -/

/-- The SHA-1 digest of the six bytes `hello\n`,
f572d396 fae92066 28714fb2 ce00f72e 94f2258f; its seventh byte is 0x20. -/
def helloDigest : Bytes :=
  [245, 114, 211, 150, 250, 233, 32, 102, 40, 113, 79, 178, 206, 0, 247, 46, 148, 242, 37, 143]

/-- The SHA-1 digest of the empty input,
da39a3ee 5e6b4b0d 3255bfef 95601890 afd80709. -/
def emptyDigest : Bytes :=
  [218, 57, 163, 238, 94, 107, 75, 13, 50, 85, 191, 239, 149, 96, 24, 144, 175, 216, 7, 9]

/-- The values of `sha1.Sum` on the two contents the concrete trees below hold:
`hello\n` and the empty content. -/
def sha1Sample (content : Bytes) : Bytes :=
  if content = ascii "hello\n" then helloDigest else emptyDigest

/-- A root directory with an empty snapshot directory and one file `f` holding
`hello\n`. -/
def helloTree : Node :=
  .dir true
    (.cons (ascii ".freezeVersions") (.dir true .nil)
      (.cons (ascii "f") (.file (ascii "hello\n") true) .nil))

/-- The store `{"r/f": helloDigest}`, the scan of `helloTree` at the root `r`. -/
def helloStore : store := store.empty.set (ascii "r/f") helloDigest

/-- A disk on which `dir` is an existing empty directory, the only place where
files can be created. -/
def freshDisk (dir : Bytes) : FileSys :=
  { readDir := fun d => if d = dir then some [] else none
    fileBytes := fun _ => none
    creatable := fun p => (dir ++ [47]).isPrefixOf p }

/-- A disk whose directory `dir` lists `names`, each file holding `content`. -/
def diskWith (dir : Bytes) (names : List Bytes) (content : Bytes) : FileSys :=
  { readDir := fun d => if d = dir then some names else none
    fileBytes := fun p => if names.any (fun n => p == joinSlash dir n) then some content else none
    creatable := fun p => (dir ++ [47]).isPrefixOf p }

/-- The snapshot directory of the root `r`. -/
def snapDir : Bytes := ascii "r/.freezeVersions"

/-- A file name as `time.Now().Format(time.RFC3339)` renders it. -/
def stampA : Bytes := ascii "2021-03-04T05:06:07Z"

/-- A single line of `maxScanTokenSize` letters `a`, without separator or line
feed. -/
def longLine : Bytes := List.replicate maxScanTokenSize 97

/-- The name `0001-01-01T00:00:00Z`, which parses to the zero time. -/
def zeroStamp : Bytes := ascii "0001-01-01T00:00:00Z"

/-- The name written one second after `stampA`. -/
def stampB : Bytes := ascii "2021-03-04T05:06:08Z"

/-- The values of `time.Parse(time.RFC3339, ·)` on the names the concrete
listings below hold, in seconds after the zero time: three timestamps, and
failure on `notes.txt` and every other name used. -/
def parseSample (name : Bytes) : Option Int :=
  if name = zeroStamp then some 0
  else if name = stampA then some 63750431167
  else if name = stampB then some 63750431168
  else none

/-- The path `p` is the snapshot directory `.freezeVersions` of `root` or lies
beneath it. -/
def inSnapshotDir (root p : Bytes) : Bool :=
  p == joinSlash root (ascii ".freezeVersions") ||
    (joinSlash root (ascii ".freezeVersions") ++ [47]).isPrefixOf p

/-- The entries `store.add` records: those that are no directory and whose path
does not contain `freezeVersions`. -/
def Visit.kept (v : Visit) : Bool :=
  v.info == some false && !stringsContains v.path (ascii "freezeVersions")

/-- A root directory with an empty snapshot directory and one file,
`freezeVersions.md`, holding `hello\n`. -/
def notesTree : Node :=
  .dir true
    (.cons (ascii ".freezeVersions") (.dir true .nil)
      (.cons (ascii "freezeVersions.md") (.file (ascii "hello\n") true) .nil))

/-- A root directory with a readable file `f` holding `hello\n` and a file
`locked` whose read fails, no byte being returned. -/
def lockedTree : Node :=
  .dir true
    (.cons (ascii "f") (.file (ascii "hello\n") true)
      (.cons (ascii "locked") (.file [] false) .nil))

/-- A disk on which nothing exists: no directory can be listed, no file opened
or created. -/
def emptyDisk : FileSys :=
  { readDir := fun _ => none
    fileBytes := fun _ => none
    creatable := fun _ => false }

/-- Whether an entry is storable can be computed. -/
instance : DecidablePred Storable := fun e => by
  unfold Storable
  exact inferInstance

/-- The record `saveToFile` writes for one entry. -/
def recordOf (e : Bytes × Bytes) : Bytes := e.1 ++ [seperator] ++ e.2 ++ [newline]

/-- The store `{"r/g": emptyDigest}`: the scan of a root `r` holding one empty
file `g`. -/
def emptyFileStore : store := store.empty.set (ascii "r/g") emptyDigest

/-- Whether `openMostRecent` reaches `latestFileInfo.Name()` with a nil
`latestFileInfo`: the listing is not empty and its loop selected no entry. -/
def derefsNil (parse : Bytes → Option Int) (files : List Bytes) : Bool :=
  files.length != 0 && (latestLoop parse files).2.isNone

/-- A root directory holding a file `f` and a directory `sub.freezeVersions`
with a file `g` in it, both files holding `hello\n`. -/
def nestedTree : Node :=
  .dir true
    (.cons (ascii "f") (.file (ascii "hello\n") true)
      (.cons (ascii "sub.freezeVersions")
        (.dir true (.cons (ascii "g") (.file (ascii "hello\n") true) .nil)) .nil))

/-! ## Facts about stores -/

theorem find?_key_eq_some_iff (l : List (Bytes × Bytes)) (h : (l.map Prod.fst).Nodup)
    (k v : Bytes) :
    (l.find? (fun e => e.1 == k)).map Prod.snd = some v ↔ (k, v) ∈ l := by
  induction l with
  | nil => simp
  | cons a t ih =>
    obtain ⟨ak, av⟩ := a
    simp only [List.map_cons, List.nodup_cons] at h
    by_cases hk : ak = k
    · subst hk
      simp only [List.find?_cons, beq_self_eq_true, Option.map_some', Option.some.injEq,
        List.mem_cons, Prod.mk.injEq, true_and]
      constructor
      · intro hv; exact Or.inl hv.symm
      · rintro (hv | hv)
        · exact hv.symm
        · exact absurd (List.mem_map_of_mem Prod.fst hv) h.1
    · have hb : (ak == k) = false := by simpa using hk
      simp only [List.find?_cons, hb, List.mem_cons, Prod.mk.injEq]
      rw [ih h.2]
      constructor
      · intro hv; exact Or.inr hv
      · rintro (⟨hv, _⟩ | hv)
        · exact absurd hv.symm hk
        · exact hv

theorem store.get?_eq_some_iff (s : store) (k v : Bytes) :
    s.get? k = some v ↔ (k, v) ∈ s.entries :=
  find?_key_eq_some_iff s.entries s.nodup k v

theorem store.get?_eq_none_iff (s : store) (k : Bytes) :
    s.get? k = none ↔ ∀ e ∈ s.entries, e.1 ≠ k := by
  unfold store.get?
  simp only [Option.map_eq_none', List.find?_eq_none, beq_iff_eq]

theorem store.get?_set (s : store) (k v k' : Bytes) :
    (s.set k v).get? k' = if k' = k then some v else s.get? k' := by
  unfold store.get? store.set
  by_cases h : k' = k
  · subst h
    simp
  · have hb : (k == k') = false := by simpa using fun e => h e.symm
    simp only [List.find?_cons, hb, if_neg h]
    congr 1
    induction s.entries with
    | nil => rfl
    | cons a t ih =>
      obtain ⟨ak, av⟩ := a
      by_cases ha : ak = k
      · subst ha
        simp [List.filter_cons, List.find?_cons, hb, ih]
      · by_cases ha' : ak = k'
        · subst ha'
          simp [List.filter_cons, ha, List.find?_cons]
        · have hb' : (ak == k') = false := by simpa using ha'
          simp [List.filter_cons, ha, List.find?_cons, hb', ih]

theorem store.contains_iff (s : store) (k : Bytes) :
    s.contains k = true ↔ ∃ v, (k, v) ∈ s.entries := by
  unfold store.contains
  rw [Option.isSome_iff_exists]
  exact exists_congr fun v => s.get?_eq_some_iff k v

/-! ## Facts about the printed lines -/

theorem colorRed_eq : colorRed = [27, 91, 51, 49, 109] := by decide

theorem colorGreen_eq : colorGreen = [27, 91, 51, 50, 109] := by decide

theorem colorYellow_eq : colorYellow = [27, 91, 51, 51, 109] := by decide

theorem println3_inj (c p q t : Bytes) (h : println3 c p t = println3 c q t) : p = q := by
  unfold println3 at h
  simp only [List.append_assoc] at h
  have h1 := List.append_cancel_left (List.append_cancel_left h)
  exact List.append_cancel_right h1

theorem println3_color (c c' p q t t' : Bytes) (hl : c.length = c'.length)
    (h : println3 c p t = println3 c' q t') : c = c' := by
  unfold println3 at h
  simp only [List.append_assoc] at h
  exact (List.append_inj h hl).1

theorem changedLine_inj {p q : Bytes} (h : changedLine p = changedLine q) : p = q :=
  println3_inj _ _ _ _ h

theorem deletedLine_inj {p q : Bytes} (h : deletedLine p = deletedLine q) : p = q :=
  println3_inj _ _ _ _ h

theorem addedLine_inj {p q : Bytes} (h : addedLine p = addedLine q) : p = q :=
  println3_inj _ _ _ _ h

theorem changedLine_ne_deletedLine (p q : Bytes) : changedLine p ≠ deletedLine q := by
  intro h
  have := println3_color _ _ _ _ _ _ (by decide) h
  exact absurd this (by decide)

theorem changedLine_ne_addedLine (p q : Bytes) : changedLine p ≠ addedLine q := by
  intro h
  have := println3_color _ _ _ _ _ _ (by decide) h
  exact absurd this (by decide)

theorem deletedLine_ne_addedLine (p q : Bytes) : deletedLine p ≠ addedLine q := by
  intro h
  have := println3_color _ _ _ _ _ _ (by decide) h
  exact absurd this (by decide)

theorem diffBefore_cases (after : store) (e : Bytes × Bytes) (L : Bytes)
    (h : diffBefore after e = some L) :
    (L = changedLine e.1 ∧ ∃ a, after.get? e.1 = some a ∧ e.2 ≠ a) ∨
      (L = deletedLine e.1 ∧ after.get? e.1 = none) := by
  unfold diffBefore at h
  cases hg : after.get? e.1 with
  | none =>
    rw [hg] at h
    simp only [Option.some.injEq] at h
    exact Or.inr ⟨h.symm, rfl⟩
  | some a =>
    rw [hg] at h
    by_cases hne : e.2 ≠ a
    · dsimp only at h
      rw [if_pos hne] at h
      exact Or.inl ⟨(Option.some.inj h).symm, a, rfl, hne⟩
    · dsimp only at h
      rw [if_neg hne] at h
      exact absurd h (by simp)

theorem diffAfter_cases (before : store) (e : Bytes × Bytes) (L : Bytes)
    (h : diffAfter before e = some L) : L = addedLine e.1 ∧ before.get? e.1 = none := by
  unfold diffAfter at h
  cases hg : before.get? e.1 with
  | none =>
    rw [hg] at h
    simp only [Option.some.injEq] at h
    exact ⟨h.symm, rfl⟩
  | some a =>
    rw [hg] at h
    simp at h

theorem mem_diff_changed (before after : store) (p : Bytes) :
    changedLine p ∈ checkAndDisplayDiff before after ↔
      ∃ b a, before.get? p = some b ∧ after.get? p = some a ∧ b ≠ a := by
  unfold checkAndDisplayDiff
  simp only [List.mem_append, List.mem_filterMap]
  constructor
  · rintro (⟨e, he, hL⟩ | ⟨e, _, hL⟩)
    · rcases diffBefore_cases after e _ hL with ⟨h1, a, ha, hne⟩ | ⟨h1, _⟩
      · have hp := changedLine_inj h1
        subst hp
        exact ⟨e.2, a, (before.get?_eq_some_iff _ _).2 he, ha, hne⟩
      · exact absurd h1 (changedLine_ne_deletedLine _ _)
    · exact absurd (diffAfter_cases before e _ hL).1 (changedLine_ne_addedLine _ _)
  · rintro ⟨b, a, hb, ha, hne⟩
    refine Or.inl ⟨(p, b), (before.get?_eq_some_iff _ _).1 hb, ?_⟩
    simp [diffBefore, ha, hne]

theorem mem_diff_deleted (before after : store) (p : Bytes) :
    deletedLine p ∈ checkAndDisplayDiff before after ↔
      before.contains p = true ∧ after.contains p = false := by
  unfold checkAndDisplayDiff
  simp only [List.mem_append, List.mem_filterMap]
  constructor
  · rintro (⟨e, he, hL⟩ | ⟨e, _, hL⟩)
    · rcases diffBefore_cases after e _ hL with ⟨h1, _⟩ | ⟨h1, hn⟩
      · exact absurd h1.symm (changedLine_ne_deletedLine _ _)
      · have hp := deletedLine_inj h1
        subst hp
        exact ⟨(before.contains_iff _).2 ⟨e.2, he⟩, by simp [store.contains, hn]⟩
    · exact absurd (diffAfter_cases before e _ hL).1 (deletedLine_ne_addedLine _ _)
  · rintro ⟨hb, ha⟩
    obtain ⟨v, hv⟩ := (before.contains_iff _).1 hb
    have hn : after.get? p = none := by
      simpa [store.contains] using ha
    refine Or.inl ⟨(p, v), hv, ?_⟩
    simp [diffBefore, hn]

theorem mem_diff_added (before after : store) (p : Bytes) :
    addedLine p ∈ checkAndDisplayDiff before after ↔
      after.contains p = true ∧ before.contains p = false := by
  unfold checkAndDisplayDiff
  simp only [List.mem_append, List.mem_filterMap]
  constructor
  · rintro (⟨e, _, hL⟩ | ⟨e, he, hL⟩)
    · rcases diffBefore_cases after e _ hL with ⟨h1, _⟩ | ⟨h1, _⟩
      · exact absurd h1.symm (changedLine_ne_addedLine _ _)
      · exact absurd h1.symm (deletedLine_ne_addedLine _ _)
    · obtain ⟨h1, hn⟩ := diffAfter_cases before e _ hL
      have hp := addedLine_inj h1
      subst hp
      exact ⟨(after.contains_iff _).2 ⟨e.2, he⟩, by simp [store.contains, hn]⟩
  · rintro ⟨ha, hb⟩
    obtain ⟨v, hv⟩ := (after.contains_iff _).1 ha
    have hn : before.get? p = none := by
      simpa [store.contains] using hb
    refine Or.inr ⟨(p, v), hv, ?_⟩
    simp [diffAfter, hn]

theorem nodup_filterMap_of_keys (l : List (Bytes × Bytes)) (hnd : (l.map Prod.fst).Nodup)
    (f : Bytes × Bytes → Option Bytes)
    (hf : ∀ e e' L, f e = some L → f e' = some L → e.1 = e'.1) :
    (l.filterMap f).Nodup := by
  induction l with
  | nil => simp
  | cons a t ih =>
    simp only [List.map_cons, List.nodup_cons] at hnd
    cases hfa : f a with
    | none =>
      rw [List.filterMap_cons_none hfa]
      exact ih hnd.2
    | some L =>
      rw [List.filterMap_cons_some hfa]
      refine List.nodup_cons.2 ⟨?_, ih hnd.2⟩
      intro hmem
      obtain ⟨e', he', hfe'⟩ := List.mem_filterMap.1 hmem
      have hk := hf a e' L hfa hfe'
      exact hnd.1 (hk ▸ List.mem_map_of_mem Prod.fst he')

theorem checkAndDisplayDiff_nodup (before after : store) :
    (checkAndDisplayDiff before after).Nodup := by
  unfold checkAndDisplayDiff
  refine List.Nodup.append ?_ ?_ ?_
  · refine nodup_filterMap_of_keys _ before.nodup _ ?_
    intro e e' L h h'
    rcases diffBefore_cases after e L h with ⟨h1, _⟩ | ⟨h1, _⟩ <;>
      rcases diffBefore_cases after e' L h' with ⟨h2, _⟩ | ⟨h2, _⟩
    · exact changedLine_inj (h1.symm.trans h2)
    · exact absurd (h1.symm.trans h2) (changedLine_ne_deletedLine _ _)
    · exact absurd (h2.symm.trans h1) (changedLine_ne_deletedLine _ _)
    · exact deletedLine_inj (h1.symm.trans h2)
  · refine nodup_filterMap_of_keys _ after.nodup _ ?_
    intro e e' L h h'
    exact addedLine_inj ((diffAfter_cases before e L h).1.symm.trans
      (diffAfter_cases before e' L h').1)
  · intro L hL hL'
    obtain ⟨e, _, he⟩ := List.mem_filterMap.1 hL
    obtain ⟨e', _, he'⟩ := List.mem_filterMap.1 hL'
    have h2 := (diffAfter_cases before e' L he').1
    rcases diffBefore_cases after e L he with ⟨h1, _⟩ | ⟨h1, _⟩
    · exact absurd (h1.symm.trans h2) (changedLine_ne_addedLine _ _)
    · exact absurd (h1.symm.trans h2) (deletedLine_ne_addedLine _ _)

theorem occurrences_of_nodup (L : Bytes) (out : List Bytes) (hnd : out.Nodup) :
    occurrences L out = if L ∈ out then 1 else 0 := by
  unfold occurrences
  induction out with
  | nil => simp
  | cons a t ih =>
    rw [List.nodup_cons] at hnd
    by_cases h : a = L
    · subst h
      have ht : List.filter (fun l => decide (l = a)) t = [] := by
        rw [List.filter_eq_nil_iff]
        intro x hx
        simp only [decide_eq_true_eq]
        rintro rfl
        exact hnd.1 hx
      simp [List.filter_cons, ht]
    · have h' : ¬ L = a := fun e => h e.symm
      simp only [List.filter_cons, h, decide_False, Bool.false_eq_true, if_false,
        List.mem_cons, h', false_or]
      exact ih hnd.2

theorem linesAbout_diff (before after : store) (p : Bytes) :
    linesAbout (checkAndDisplayDiff before after) p =
      (if changedLine p ∈ checkAndDisplayDiff before after then 1 else 0,
        if deletedLine p ∈ checkAndDisplayDiff before after then 1 else 0,
        if addedLine p ∈ checkAndDisplayDiff before after then 1 else 0) := by
  have hnd := checkAndDisplayDiff_nodup before after
  unfold linesAbout
  rw [occurrences_of_nodup _ _ hnd, occurrences_of_nodup _ _ hnd,
    occurrences_of_nodup _ _ hnd]

/-! ## C2 and C4: the classification printed by `checkAndDisplayDiff` -/

/-- C2: `checkAndDisplayDiff` prints the changed line of a path exactly when the
path is a key of both stores with byte-wise different digests, its deleted line
exactly when it is a key of `before` and not of `after`, and its added line
exactly when it is a key of `after` and not of `before`. -/
theorem checkAndDisplayDiff_classification (before after : store) (p : Bytes) :
    (changedLine p ∈ checkAndDisplayDiff before after ↔
        ∃ b a, before.get? p = some b ∧ after.get? p = some a ∧ b ≠ a) ∧
      (deletedLine p ∈ checkAndDisplayDiff before after ↔
        before.contains p = true ∧ after.contains p = false) ∧
      (addedLine p ∈ checkAndDisplayDiff before after ↔
        after.contains p = true ∧ before.contains p = false) :=
  ⟨mem_diff_changed before after p, mem_diff_deleted before after p,
    mem_diff_added before after p⟩

/-- C4: a path that is a key of `before` or of `after` is in exactly one of the
four classes unchanged, changed, deleted, added, and the lines printed about it
are those of its class alone: none when it is unchanged, else one; so at most
one line is printed about it, and none exactly when it is a key of both stores
with identical digests. -/
theorem checkAndDisplayDiff_exactly_one_class (before after : store) (p : Bytes)
    (hp : before.contains p = true ∨ after.contains p = true) :
    (((∃ d, before.get? p = some d ∧ after.get? p = some d) ∧
          linesAbout (checkAndDisplayDiff before after) p = (0, 0, 0)) ∨
        ((∃ b a, before.get? p = some b ∧ after.get? p = some a ∧ b ≠ a) ∧
          linesAbout (checkAndDisplayDiff before after) p = (1, 0, 0)) ∨
        ((before.contains p = true ∧ after.contains p = false) ∧
          linesAbout (checkAndDisplayDiff before after) p = (0, 1, 0)) ∨
        ((after.contains p = true ∧ before.contains p = false) ∧
          linesAbout (checkAndDisplayDiff before after) p = (0, 0, 1))) ∧
      (linesAbout (checkAndDisplayDiff before after) p).1 +
          (linesAbout (checkAndDisplayDiff before after) p).2.1 +
          (linesAbout (checkAndDisplayDiff before after) p).2.2 ≤ 1 ∧
      ((linesAbout (checkAndDisplayDiff before after) p).1 +
          (linesAbout (checkAndDisplayDiff before after) p).2.1 +
          (linesAbout (checkAndDisplayDiff before after) p).2.2 = 0 ↔
        ∃ d, before.get? p = some d ∧ after.get? p = some d) := by
  rw [linesAbout_diff]
  have hC := mem_diff_changed before after p
  have hD := mem_diff_deleted before after p
  have hA := mem_diff_added before after p
  unfold store.contains at hp hD hA ⊢
  cases hb : before.get? p with
  | none =>
    cases ha : after.get? p with
    | none => simp [hb, ha] at hp
    | some a =>
      rw [hb, ha] at hC hD hA
      have h1 : changedLine p ∉ checkAndDisplayDiff before after := by simp [hC]
      have h2 : deletedLine p ∉ checkAndDisplayDiff before after := by simp [hD]
      have h3 : addedLine p ∈ checkAndDisplayDiff before after := by simp [hA]
      simp [h1, h2, h3]
  | some b =>
    cases ha : after.get? p with
    | none =>
      rw [hb, ha] at hC hD hA
      have h1 : changedLine p ∉ checkAndDisplayDiff before after := by simp [hC]
      have h2 : deletedLine p ∈ checkAndDisplayDiff before after := by simp [hD]
      have h3 : addedLine p ∉ checkAndDisplayDiff before after := by simp [hA]
      simp [h1, h2, h3]
    | some a =>
      rw [hb, ha] at hC hD hA
      have h2 : deletedLine p ∉ checkAndDisplayDiff before after := by simp [hD]
      have h3 : addedLine p ∉ checkAndDisplayDiff before after := by simp [hA]
      by_cases hba : b = a
      · subst hba
        have h1 : changedLine p ∉ checkAndDisplayDiff before after := by simp [hC]
        simp [h1, h2, h3]
      · have h1 : changedLine p ∈ checkAndDisplayDiff before after := by simp [hC, hba]
        have hab : ¬ a = b := fun e => hba e.symm
        simp [h1, h2, h3, hba, hab]

/-! ## Facts about splitting and scanning -/

theorem stringsSplit_ne_nil (s : Bytes) (sep : UInt8) : stringsSplit s sep ≠ [] := by
  induction s with
  | nil => simp [stringsSplit]
  | cons c cs ih =>
    unfold stringsSplit
    by_cases h : c = sep
    · simp [h]
    · simp only [h, if_false]
      cases hs : stringsSplit cs sep with
      | nil => simp
      | cons f fs => simp

theorem stringsSplit_of_not_mem (d : Bytes) (sep : UInt8) (h : sep ∉ d) :
    stringsSplit d sep = [d] := by
  induction d with
  | nil => rfl
  | cons c cs ih =>
    simp only [List.mem_cons, not_or] at h
    have hc : ¬ c = sep := fun e => h.1 e.symm
    unfold stringsSplit
    simp only [hc, if_false, ih h.2]

theorem stringsSplit_append (p d : Bytes) (sep : UInt8) (h : sep ∉ p) :
    stringsSplit (p ++ sep :: d) sep = p :: stringsSplit d sep := by
  induction p with
  | nil => simp only [List.nil_append, stringsSplit, if_true]
  | cons c cs ih =>
    simp only [List.mem_cons, not_or] at h
    have hc : ¬ c = sep := fun e => h.1 e.symm
    show stringsSplit (c :: (cs ++ sep :: d)) sep = _
    simp only [stringsSplit, hc, if_false, ih h.2]

theorem scanLinesAux_line (l rest cur : Bytes) (h : newline ∉ l) :
    scanLinesAux (l ++ newline :: rest) cur =
      if cur.length + l.length < maxScanTokenSize then
        dropCR (cur.reverse ++ l) :: scanLinesAux rest []
      else [] := by
  induction l generalizing cur with
  | nil => simp only [List.nil_append, scanLinesAux, if_true, List.length_nil, Nat.add_zero,
      List.append_nil]
  | cons c cs ih =>
    simp only [List.mem_cons, not_or] at h
    have hc : ¬ c = newline := fun e => h.1 e.symm
    show scanLinesAux (c :: (cs ++ newline :: rest)) cur = _
    simp only [scanLinesAux, hc, if_false]
    rw [ih (c :: cur) h.2]
    simp only [List.length_cons, List.reverse_cons, List.append_assoc, List.singleton_append]
    have e : cur.length + 1 + cs.length = cur.length + (cs.length + 1) := by omega
    rw [e]

theorem scanLinesAux_last (l cur : Bytes) (h : newline ∉ l) :
    scanLinesAux l cur =
      if cur.reverse ++ l = [] then []
      else if cur.length + l.length < maxScanTokenSize then [dropCR (cur.reverse ++ l)]
      else [] := by
  induction l generalizing cur with
  | nil => simp [scanLinesAux]
  | cons c cs ih =>
    simp only [List.mem_cons, not_or] at h
    have hc : ¬ c = newline := fun e => h.1 e.symm
    simp only [scanLinesAux, hc, if_false]
    rw [ih (c :: cur) h.2]
    simp only [List.length_cons, List.reverse_cons, List.append_assoc, List.singleton_append]
    have e : cur.length + 1 + cs.length = cur.length + (cs.length + 1) := by omega
    rw [e]

theorem stringsSplit_of_mem (line : Bytes) (sep : UInt8) (h : sep ∈ line) :
    ∃ k d rest, stringsSplit line sep = k :: d :: rest := by
  induction line with
  | nil => simp at h
  | cons c cs ih =>
    by_cases hc : c = sep
    · cases hs : stringsSplit cs sep with
      | nil => exact absurd hs (stringsSplit_ne_nil cs sep)
      | cons f fs => exact ⟨[], f, fs, by simp only [stringsSplit, hc, if_true, hs]⟩
    · have hm : sep ∈ cs := by
        rcases List.mem_cons.1 h with e | e
        · exact absurd e.symm hc
        · exact e
      obtain ⟨k, d, rest, hk⟩ := ih hm
      exact ⟨c :: k, d, rest, by simp only [stringsSplit, hc, if_false, hk]⟩

theorem loadLine_eq_none_iff (s : store) (line : Bytes) :
    loadLine s line = none ↔ seperator ∉ line := by
  unfold loadLine
  constructor
  · intro h hm
    obtain ⟨k, d, rest, hk⟩ := stringsSplit_of_mem line seperator hm
    rw [hk] at h
    simp at h
  · intro h
    rw [stringsSplit_of_not_mem line seperator h]

theorem loadLine_entry (s : store) (p d : Bytes) (hp : seperator ∉ p) (hd : seperator ∉ d) :
    loadLine s (p ++ seperator :: d) = some (s.set p d) := by
  unfold loadLine
  rw [stringsSplit_append p d seperator hp, stringsSplit_of_not_mem d seperator hd]

theorem foldlM_loadLine_none (lines : List Bytes) (s : store)
    (h : ∃ line ∈ lines, seperator ∉ line) : lines.foldlM loadLine s = none := by
  induction lines generalizing s with
  | nil => simp at h
  | cons a t ih =>
    rw [List.foldlM_cons]
    cases ha : loadLine s a with
    | none => rfl
    | some s' =>
      obtain ⟨line, hl, hn⟩ := h
      rcases List.mem_cons.1 hl with e | e
      · subst e
        rw [(loadLine_eq_none_iff s line).2 hn] at ha
        exact absurd ha (by simp)
      · exact ih s' ⟨line, e, hn⟩

theorem dropCR_entry (p d : Bytes) (h : d.getLast? ≠ some carriageReturn) :
    dropCR (p ++ seperator :: d) = p ++ seperator :: d := by
  unfold dropCR
  have hl : (p ++ seperator :: d).getLast? ≠ some carriageReturn := by
    rw [List.getLast?_append_cons, List.getLast?_cons]
    cases hd : d.getLast? with
    | none => simp [seperator, carriageReturn]
    | some x =>
      rw [hd] at h
      simpa using h
  rw [if_neg hl]

theorem foldl_snapshot (l : List (Bytes × Bytes)) (acc : Bytes) :
    l.foldl (fun out e => out ++ e.1 ++ [seperator] ++ e.2 ++ [newline]) acc =
      acc ++ l.foldl (fun out e => out ++ e.1 ++ [seperator] ++ e.2 ++ [newline]) [] := by
  induction l generalizing acc with
  | nil => simp
  | cons a t ih =>
    simp only [List.foldl_cons]
    rw [ih, ih ([] ++ a.1 ++ [seperator] ++ a.2 ++ [newline])]
    simp only [List.append_assoc, List.nil_append]

theorem foldl_snapshot_cons (a : Bytes × Bytes) (t : List (Bytes × Bytes)) :
    (a :: t).foldl (fun out e => out ++ e.1 ++ [seperator] ++ e.2 ++ [newline]) [] =
      (a.1 ++ seperator :: a.2) ++ newline ::
        t.foldl (fun out e => out ++ e.1 ++ [seperator] ++ e.2 ++ [newline]) [] := by
  simp only [List.foldl_cons]
  rw [foldl_snapshot]
  simp only [List.append_assoc, List.nil_append, List.singleton_append, List.cons_append]

theorem foldlM_snapshot (l : List (Bytes × Bytes)) (hl : ∀ e ∈ l, Storable e) (s0 : store) :
    (scanLines (l.foldl (fun out e => out ++ e.1 ++ [seperator] ++ e.2 ++ [newline]) [])).foldlM
        loadLine s0 = some (l.foldl (fun s e => s.set e.1 e.2) s0) := by
  induction l generalizing s0 with
  | nil => rfl
  | cons a t ih =>
    obtain ⟨h1, h2, h3, h4, h5, h6⟩ := hl a (List.mem_cons_self a t)
    have hnl : newline ∉ a.1 ++ seperator :: a.2 := by
      simp only [List.mem_append, List.mem_cons, not_or]
      exact ⟨h2, by decide, h4⟩
    have hlen : ([] : Bytes).length + (a.1 ++ seperator :: a.2).length < maxScanTokenSize := by
      simp only [List.length_nil, List.length_append, List.length_cons]
      omega
    rw [foldl_snapshot_cons]
    unfold scanLines
    rw [scanLinesAux_line _ _ _ hnl, if_pos hlen]
    simp only [List.reverse_nil, List.nil_append]
    rw [dropCR_entry a.1 a.2 h5, List.foldlM_cons, loadLine_entry s0 a.1 a.2 h1 h3]
    exact ih (fun e he => hl e (List.mem_cons_of_mem a he)) (s0.set a.1 a.2)

theorem get?_foldl_set (l : List (Bytes × Bytes)) (hnd : (l.map Prod.fst).Nodup) (s0 : store)
    (k : Bytes) :
    (l.foldl (fun s e => s.set e.1 e.2) s0).get? k =
      ((l.find? (fun e => e.1 == k)).map Prod.snd).or (s0.get? k) := by
  induction l generalizing s0 with
  | nil => simp
  | cons a t ih =>
    simp only [List.map_cons, List.nodup_cons] at hnd
    simp only [List.foldl_cons]
    rw [ih hnd.2, store.get?_set]
    by_cases ha : a.1 = k
    · have hn : t.find? (fun e => e.1 == k) = none := by
        rw [List.find?_eq_none]
        intro x hx hxk
        exact hnd.1 (by
          have : x.1 = a.1 := by simpa [ha] using hxk
          exact this ▸ List.mem_map_of_mem Prod.fst hx)
      simp [List.find?_cons, ha, hn]
    · have hk : ¬ k = a.1 := fun e => ha e.symm
      have hb : (a.1 == k) = false := by simpa using ha
      simp [List.find?_cons, hb, hk]

theorem readStore_snapshotBytes (S : store) (h : ∀ e ∈ S.entries, Storable e) :
    ∃ T, readStore (snapshotBytes S) = some T ∧ T.Equiv S := by
  refine ⟨S.entries.foldl (fun s e => s.set e.1 e.2) store.empty, ?_, ?_⟩
  · exact foldlM_snapshot S.entries h store.empty
  · intro k
    rw [get?_foldl_set S.entries S.nodup]
    unfold store.get?
    cases (List.find? (fun e => e.1 == k) S.entries) <;> simp [store.empty]

theorem openFromFile_saveToFile (join : Bytes → Bytes → Bytes) (stamp : Bytes) (S : store)
    (dir : Bytes) (fs : FileSys) (hc : fs.creatable (join dir stamp) = true) :
    openFromFile (saveToFile join stamp S dir fs) (join dir stamp) =
      readStore (snapshotBytes S) := by
  unfold openFromFile saveToFile
  simp [hc]

/-! ## C1, C3 and C10: a saved snapshot loaded back -/

/-- C1 (the code breaks it): the store `{"r/f": helloDigest}` is saved and loaded
back; the load succeeds, and the digest it holds for `r/f` is only the six bytes
before the byte 0x20 of the saved digest. -/
theorem roundtrip_truncates_digest :
    helloStore.get? (ascii "r/f") = some helloDigest ∧
      (openFromFile (saveToFile joinSlash stampA helloStore snapDir (freshDisk snapDir))
          (joinSlash snapDir stampA)).map (fun T => T.get? (ascii "r/f")) =
        some (some [245, 114, 211, 150, 250, 233]) := by
  decide

/-- C3 (the code breaks it): the tree `helloTree` is scanned, the scan is saved,
the snapshot is loaded as `before` and the same scan is `after`; the diff
prints that the unchanged file `r/f` has been changed. -/
theorem second_run_reports_false_change :
    getFromCurrent sha1Sample joinSlash helloTree (ascii "r") = some helloStore ∧
      (openFromFile (saveToFile joinSlash stampA helloStore snapDir (freshDisk snapDir))
          (joinSlash snapDir stampA)).map (fun before => checkAndDisplayDiff before helloStore) =
        some [changedLine (ascii "r/f")] := by
  decide

/-- C10 (the code breaks it): the line `r/f`, separator, `helloDigest` is loaded;
the digest stored under `r/f` is the six bytes between the first and the second
separator, not all twenty bytes after the first separator. -/
theorem load_stops_at_second_separator :
    (openFromFile
          (diskWith snapDir [stampA] (ascii "r/f" ++ [seperator] ++ helloDigest ++ [newline]))
          (joinSlash snapDir stampA)).map (fun T => T.get? (ascii "r/f")) =
        some (some [245, 114, 211, 150, 250, 233]) ∧
      helloDigest ≠ [245, 114, 211, 150, 250, 233] := by
  decide

/-! ## The scanner's lines and the lines of the file -/

theorem exists_first_occurrence (a : UInt8) (l : Bytes) (h : a ∈ l) :
    ∃ s t, l = s ++ a :: t ∧ a ∉ s := by
  induction l with
  | nil => simp at h
  | cons c cs ih =>
    by_cases hc : c = a
    · exact ⟨[], cs, by simp [hc], by simp⟩
    · have hm : a ∈ cs := by
        rcases List.mem_cons.1 h with e | e
        · exact absurd e.symm hc
        · exact e
      obtain ⟨s, t, hst, hs⟩ := ih hm
      refine ⟨c :: s, t, by simp [hst], ?_⟩
      simp only [List.mem_cons, not_or]
      exact ⟨fun e => hc e.symm, hs⟩

theorem fileLines_line (l rest : Bytes) (h : newline ∉ l) :
    fileLines (l ++ newline :: rest) = l :: fileLines rest := by
  unfold fileLines
  rw [stringsSplit_append l rest newline h]
  cases hs : stringsSplit rest newline with
  | nil => exact absurd hs (stringsSplit_ne_nil rest newline)
  | cons f fs =>
    rw [List.getLast?_cons_cons]
    by_cases hl : (f :: fs).getLast? = some []
    · rw [if_pos hl, if_pos hl, List.dropLast_cons_of_ne_nil (by simp)]
    · rw [if_neg hl, if_neg hl]

theorem fileLines_last (l : Bytes) (h : newline ∉ l) :
    fileLines l = if l = [] then [] else [l] := by
  unfold fileLines
  rw [stringsSplit_of_not_mem l newline h]
  by_cases hl : l = []
  · subst hl
    simp
  · have : ¬ ([l].getLast? = some []) := by simpa using hl
    rw [if_neg this, if_neg hl]

theorem scanLines_eq_fileLines_aux (n : Nat) : ∀ content : Bytes, content.length = n →
    scanLines content =
      ((fileLines content).takeWhile (fun l => decide (l.length < maxScanTokenSize))).map
        dropCR := by
  induction n using Nat.strong_induction_on with
  | _ n ih =>
    intro content hn
    by_cases hm : newline ∈ content
    · obtain ⟨l, rest, hc, hl⟩ := exists_first_occurrence newline content hm
      subst hc
      have hlt : rest.length < n := by
        rw [← hn]
        simp only [List.length_append, List.length_cons]
        omega
      have hrest := ih rest.length hlt rest rfl
      unfold scanLines at hrest ⊢
      rw [fileLines_line l rest hl, scanLinesAux_line l rest [] hl]
      simp only [List.length_nil, Nat.zero_add, List.reverse_nil, List.nil_append]
      by_cases hlen : l.length < maxScanTokenSize
      · rw [if_pos hlen, List.takeWhile_cons_of_pos (by simpa using hlen), List.map_cons, hrest]
      · rw [if_neg hlen, List.takeWhile_cons_of_neg (by simpa using hlen), List.map_nil]
    · unfold scanLines
      rw [fileLines_last content hm, scanLinesAux_last content [] hm]
      simp only [List.length_nil, Nat.zero_add, List.reverse_nil, List.nil_append]
      by_cases hc : content = []
      · rw [if_pos hc, if_pos hc]
        rfl
      · rw [if_neg hc, if_neg hc]
        by_cases hlen : content.length < maxScanTokenSize
        · rw [if_pos hlen, List.takeWhile_cons_of_pos (by simpa using hlen)]
          rfl
        · rw [if_neg hlen, List.takeWhile_cons_of_neg (by simpa using hlen)]
          rfl

theorem scanLines_eq_fileLines (content : Bytes) :
    scanLines content =
      ((fileLines content).takeWhile (fun l => decide (l.length < maxScanTokenSize))).map
        dropCR :=
  scanLines_eq_fileLines_aux content.length content rfl

theorem seperator_not_mem_dropCR (line : Bytes) (h : seperator ∉ line) :
    seperator ∉ dropCR line := by
  unfold dropCR
  by_cases hl : line.getLast? = some carriageReturn
  · rw [if_pos hl]
    exact fun hm => h (List.mem_of_mem_dropLast hm)
  · rw [if_neg hl]
    exact h

theorem mem_takeWhile_append (p : Bytes → Bool) (pre : List Bytes) (line : Bytes)
    (post : List Bytes) (hpre : ∀ l ∈ pre, p l = true) (hline : p line = true) :
    line ∈ (pre ++ line :: post).takeWhile p := by
  induction pre with
  | nil =>
    rw [List.nil_append, List.takeWhile_cons_of_pos hline]
    exact List.mem_cons_self _ _
  | cons a t ih =>
    rw [List.cons_append, List.takeWhile_cons_of_pos (hpre a (List.mem_cons_self a t))]
    exact List.mem_cons_of_mem _ (ih (fun l hl => hpre l (List.mem_cons_of_mem a hl)))

theorem longLine_length : longLine.length = maxScanTokenSize := by
  unfold longLine
  exact List.length_replicate _ _

theorem longLine_ne_nil : longLine ≠ [] := by
  intro h
  have := congrArg List.length h
  rw [longLine_length] at this
  exact absurd this (by decide)

theorem not_mem_longLine (b : UInt8) (hb : b ≠ 97) : b ∉ longLine := by
  unfold longLine
  intro h
  exact hb (List.eq_of_mem_replicate h)

theorem fileLines_longLine : fileLines longLine = [longLine] := by
  rw [fileLines_last longLine (not_mem_longLine newline (by decide)), if_neg longLine_ne_nil]

theorem scanLines_longLine : scanLines longLine = [] := by
  rw [scanLines_eq_fileLines, fileLines_longLine,
    List.takeWhile_cons_of_neg (by simp [longLine_length])]
  rfl

/-! ## C7: a line without separator -/

/-- C7 (as stated, refuted): the file `longLine` consists of one line without
separator, yet `openFromFile` returns the empty store: the line fills the
scanner's buffer, `Scan` returns false and the loop body never runs. -/
theorem long_line_without_separator_is_loaded :
    (∃ line ∈ fileLines longLine, seperator ∉ line) ∧
      openFromFile (diskWith snapDir [stampA] longLine) (joinSlash snapDir stampA) =
        some store.empty := by
  refine ⟨⟨longLine, ?_, not_mem_longLine seperator (by decide)⟩, ?_⟩
  · rw [fileLines_longLine]
    exact List.mem_singleton_self _
  · have hf : (diskWith snapDir [stampA] longLine).fileBytes (joinSlash snapDir stampA) =
        some longLine := by
      simp [diskWith]
    unfold openFromFile readStore
    rw [hf, Option.getD_some, scanLines_longLine]
    rfl

/-- C7 (amended): when a line of the file holds no separator, and that line and
every line before it are shorter than `maxScanTokenSize` bytes, `openFromFile`
fails: it returns no store. -/
theorem openFromFile_fails_on_line_without_separator (fs : FileSys) (path content : Bytes)
    (pre : List Bytes) (line : Bytes) (post : List Bytes)
    (hf : fs.fileBytes path = some content)
    (hsplit : fileLines content = pre ++ line :: post)
    (hpre : ∀ l ∈ pre, l.length < maxScanTokenSize)
    (hline : line.length < maxScanTokenSize)
    (hsep : seperator ∉ line) :
    openFromFile fs path = none := by
  unfold openFromFile readStore
  rw [hf, Option.getD_some]
  apply foldlM_loadLine_none
  refine ⟨dropCR line, ?_, seperator_not_mem_dropCR line hsep⟩
  rw [scanLines_eq_fileLines, hsplit]
  apply List.mem_map_of_mem
  exact mem_takeWhile_append _ pre line post (fun l hl => by simpa using hpre l hl)
    (by simpa using hline)

/-- C7 (amended), at a concrete input: the file `r/f 1\nbad\n`, whose second
line holds no separator. -/
theorem openFromFile_fails_on_line_without_separator_witness :
    openFromFile (diskWith snapDir [stampA] (ascii "r/f 1\nbad\n")) (joinSlash snapDir stampA) =
      none :=
  openFromFile_fails_on_line_without_separator
    (diskWith snapDir [stampA] (ascii "r/f 1\nbad\n")) (joinSlash snapDir stampA)
    (ascii "r/f 1\nbad\n") [ascii "r/f 1"] (ascii "bad") [] (by decide) (by decide)
    (by decide) (by decide) (by decide)

/-! ## Facts about `openMostRecent` -/

theorem latestLoop_step_invariant (parse : Bytes → Option Int) (files : List Bytes)
    (acc : Int × Option Bytes) :
    (acc.1 ≤ (files.foldl (fun acc name =>
          if (parse name).getD 0 > acc.1 then ((parse name).getD 0, some name) else acc) acc).1) ∧
      (∀ m ∈ files, (parse m).getD 0 ≤ (files.foldl (fun acc name =>
          if (parse name).getD 0 > acc.1 then ((parse name).getD 0, some name) else acc) acc).1) ∧
      ((files.foldl (fun acc name =>
          if (parse name).getD 0 > acc.1 then ((parse name).getD 0, some name) else acc) acc = acc) ∨
        ∃ n ∈ files, files.foldl (fun acc name =>
          if (parse name).getD 0 > acc.1 then ((parse name).getD 0, some name) else acc) acc =
            ((parse n).getD 0, some n) ∧ acc.1 < (parse n).getD 0) := by
  induction files generalizing acc with
  | nil => simp
  | cons a t ih =>
    simp only [List.foldl_cons]
    by_cases h : (parse a).getD 0 > acc.1
    · rw [if_pos h]
      obtain ⟨h1, h2, h3⟩ := ih ((parse a).getD 0, some a)
      refine ⟨le_trans (le_of_lt h) h1, ?_, ?_⟩
      · intro m hm
        rcases List.mem_cons.1 hm with e | e
        · subst e
          exact h1
        · exact h2 m e
      · right
        rcases h3 with h3 | ⟨n, hn, h3, h4⟩
        · exact ⟨a, List.mem_cons_self a t, h3, h⟩
        · exact ⟨n, List.mem_cons_of_mem a hn, h3, lt_trans h h4⟩
    · rw [if_neg h]
      obtain ⟨h1, h2, h3⟩ := ih acc
      refine ⟨h1, ?_, ?_⟩
      · intro m hm
        rcases List.mem_cons.1 hm with e | e
        · subst e
          exact le_trans (not_lt.1 h) h1
        · exact h2 m e
      · rcases h3 with h3 | ⟨n, hn, h3, h4⟩
        · exact Or.inl h3
        · exact Or.inr ⟨n, List.mem_cons_of_mem a hn, h3, h4⟩

theorem latestLoop_cases (parse : Bytes → Option Int) (files : List Bytes) :
    (latestLoop parse files = (0, none) ∧ ∀ m ∈ files, (parse m).getD 0 ≤ 0) ∨
      ∃ n ∈ files, ∃ t, latestLoop parse files = (t, some n) ∧ parse n = some t ∧ 0 < t ∧
        ∀ m ∈ files, (parse m).getD 0 ≤ t := by
  obtain ⟨_, h2, h3⟩ := latestLoop_step_invariant parse files (0, none)
  rcases h3 with h3 | ⟨n, hn, h3, h4⟩
  · left
    refine ⟨h3, ?_⟩
    intro m hm
    have := h2 m hm
    rw [h3] at this
    exact this
  · right
    refine ⟨n, hn, (parse n).getD 0, h3, ?_, h4, ?_⟩
    · cases hp : parse n with
      | none => simp [hp] at h4
      | some t => simp
    · intro m hm
      have := h2 m hm
      rw [h3] at this
      exact this

theorem openMostRecent_of_listing (parse : Bytes → Option Int) (join : Bytes → Bytes → Bytes)
    (fs : FileSys) (path : Bytes) (files : List Bytes) (hd : fs.readDir path = some files)
    (hne : files ≠ []) :
    openMostRecent parse join fs path =
      match (latestLoop parse files).2 with
      | none => none
      | some name => openFromFile fs (join path name) := by
  unfold openMostRecent
  simp only [hd, Option.getD_some]
  rw [if_neg (by simpa using hne)]

theorem openMostRecent_none_of_no_candidate (parse : Bytes → Option Int)
    (join : Bytes → Bytes → Bytes) (fs : FileSys) (path : Bytes) (files : List Bytes)
    (hd : fs.readDir path = some files) (hne : files ≠ [])
    (h : ∀ m ∈ files, (parse m).getD 0 ≤ 0) :
    openMostRecent parse join fs path = none := by
  rw [openMostRecent_of_listing parse join fs path files hd hne]
  rcases latestLoop_cases parse files with ⟨h0, _⟩ | ⟨n, hn, t, _, hp, ht, _⟩
  · rw [h0]
  · have := h n hn
    rw [hp] at this
    exact absurd (lt_of_lt_of_le ht this) (lt_irrefl _)

/-! ## C5 and C6: the snapshot selected by `openMostRecent` -/

/-- C5 (as stated, refuted): the listing holds the single name
`0001-01-01T00:00:00Z`, which parses (to the zero time) and so is the maximum,
and its file loads without failure; yet `openMostRecent` does not load it: no
entry is selected and `latestFileInfo.Name()` panics. -/
theorem zero_time_snapshot_is_not_loaded :
    parseSample zeroStamp = some 0 ∧
      (diskWith snapDir [zeroStamp] (ascii "r/f 1\n")).readDir snapDir = some [zeroStamp] ∧
      openFromFile (diskWith snapDir [zeroStamp] (ascii "r/f 1\n")) (joinSlash snapDir zeroStamp) ≠
        none ∧
      openMostRecent parseSample joinSlash (diskWith snapDir [zeroStamp] (ascii "r/f 1\n"))
        snapDir = none := by
  decide

/-- C5 (amended): when some name of the listing parses to a timestamp strictly
after the zero time, the loop of `openMostRecent` selects a file of the listing
whose name parses, no name of the listing that parses has a later timestamp,
and `openMostRecent` loads the selected file. -/
theorem openMostRecent_loads_latest (parse : Bytes → Option Int)
    (join : Bytes → Bytes → Bytes) (fs : FileSys) (path : Bytes) (files : List Bytes)
    (hd : fs.readDir path = some files)
    (h : ∃ n ∈ files, ∃ t, parse n = some t ∧ 0 < t) :
    ∃ n ∈ files, ∃ t, parse n = some t ∧
      (∀ m ∈ files, ∀ t', parse m = some t' → t' ≤ t) ∧
      (latestLoop parse files).2 = some n ∧
      openMostRecent parse join fs path = openFromFile fs (join path n) := by
  obtain ⟨n0, hn0, t0, hp0, ht0⟩ := h
  have hne : files ≠ [] := List.ne_nil_of_mem hn0
  rw [openMostRecent_of_listing parse join fs path files hd hne]
  rcases latestLoop_cases parse files with ⟨_, h0⟩ | ⟨n, hn, t, hl, hp, _, hmax⟩
  · have := h0 n0 hn0
    rw [hp0] at this
    exact absurd (lt_of_lt_of_le ht0 this) (lt_irrefl _)
  · refine ⟨n, hn, t, hp, ?_, by rw [hl], by rw [hl]⟩
    intro m hm t' hp'
    have := hmax m hm
    rw [hp'] at this
    exact this

/-- C5 (amended), at a concrete input: of the listing `notes.txt`, `stampA`,
`stampB` the file named `stampB` is loaded. -/
theorem openMostRecent_loads_latest_witness :
    ∃ n ∈ [ascii "notes.txt", stampA, stampB], ∃ t, parseSample n = some t ∧
      (∀ m ∈ [ascii "notes.txt", stampA, stampB], ∀ t', parseSample m = some t' → t' ≤ t) ∧
      (latestLoop parseSample [ascii "notes.txt", stampA, stampB]).2 = some n ∧
      openMostRecent parseSample joinSlash
          (diskWith snapDir [ascii "notes.txt", stampA, stampB] (ascii "r/f 1\n")) snapDir =
        openFromFile (diskWith snapDir [ascii "notes.txt", stampA, stampB] (ascii "r/f 1\n"))
          (joinSlash snapDir n) :=
  openMostRecent_loads_latest parseSample joinSlash
    (diskWith snapDir [ascii "notes.txt", stampA, stampB] (ascii "r/f 1\n")) snapDir
    [ascii "notes.txt", stampA, stampB] (by decide)
    ⟨stampA, by decide, 63750431167, by decide, by decide⟩

/-- C6 (the code breaks it): a snapshot directory that holds only the stray file
`notes.txt`, whose name is no timestamp, makes `openMostRecent` panic, while the
same directory without that file, an empty one, gives the empty store. -/
theorem stray_file_alone_makes_openMostRecent_fail :
    parseSample (ascii "notes.txt") = none ∧
      openMostRecent parseSample joinSlash (diskWith snapDir [ascii "notes.txt"] []) snapDir =
        none ∧
      openMostRecent parseSample joinSlash (diskWith snapDir [] []) snapDir =
        some store.empty := by
  decide

/-! ## Facts about the scan -/

theorem add_of_info (sha1 : Bytes → Bytes) (s : store) (v : Visit) (h : v.info ≠ none) :
    store.add sha1 s v =
      some (if v.kept = true then s.set v.path (sha1 v.content) else s) := by
  unfold store.add Visit.kept
  cases hi : v.info with
  | none => exact absurd hi h
  | some isDir =>
    cases isDir <;> cases hc : stringsContains v.path (ascii "freezeVersions") <;> simp [hc]

theorem scan_total (sha1 : Bytes → Bytes) (visits : List Visit) (s0 : store)
    (h : ∀ v ∈ visits, v.info ≠ none) :
    visits.foldlM (store.add sha1) s0 =
      some (visits.foldl
        (fun s v => if v.kept = true then s.set v.path (sha1 v.content) else s) s0) := by
  induction visits generalizing s0 with
  | nil => rfl
  | cons a t ih =>
    rw [List.foldlM_cons, add_of_info sha1 s0 a (h a (List.mem_cons_self a t))]
    exact ih _ (fun v hv => h v (List.mem_cons_of_mem a hv))

theorem scan_get?_of_no_visit (sha1 : Bytes → Bytes) (visits : List Visit) (s0 : store)
    (p : Bytes) (h : ∀ v ∈ visits, v.kept = true → v.path ≠ p) :
    (visits.foldl
      (fun s v => if v.kept = true then s.set v.path (sha1 v.content) else s) s0).get? p =
      s0.get? p := by
  induction visits generalizing s0 with
  | nil => rfl
  | cons a t ih =>
    rw [List.foldl_cons, ih _ (fun v hv => h v (List.mem_cons_of_mem a hv))]
    by_cases hk : a.kept = true
    · rw [if_pos hk, store.get?_set, if_neg (fun e => h a (List.mem_cons_self a t) hk e.symm)]
    · rw [if_neg hk]

theorem scan_get?_cases (sha1 : Bytes → Bytes) (visits : List Visit) (s0 : store)
    (p d : Bytes)
    (h : (visits.foldl
      (fun s v => if v.kept = true then s.set v.path (sha1 v.content) else s) s0).get? p =
        some d) :
    s0.get? p = some d ∨
      ∃ v ∈ visits, v.kept = true ∧ v.path = p ∧ d = sha1 v.content := by
  induction visits generalizing s0 with
  | nil => exact Or.inl h
  | cons a t ih =>
    rw [List.foldl_cons] at h
    rcases ih _ h with h1 | ⟨v, hv, hk, hp, hd⟩
    · by_cases hk : a.kept = true
      · rw [if_pos hk, store.get?_set] at h1
        by_cases hp : p = a.path
        · rw [if_pos hp] at h1
          exact Or.inr ⟨a, List.mem_cons_self a t, hk, hp.symm, (Option.some.inj h1).symm⟩
        · rw [if_neg hp] at h1
          exact Or.inl h1
      · rw [if_neg hk] at h1
        exact Or.inl h1
    · exact Or.inr ⟨v, List.mem_cons_of_mem a hv, hk, hp, hd⟩

theorem scan_get?_of_visit (sha1 : Bytes → Bytes) (visits : List Visit) (s0 : store)
    (hnd : (visits.map Visit.path).Nodup) (v : Visit) (hv : v ∈ visits) (hk : v.kept = true) :
    (visits.foldl
      (fun s v => if v.kept = true then s.set v.path (sha1 v.content) else s) s0).get? v.path =
      some (sha1 v.content) := by
  induction visits generalizing s0 with
  | nil => simp at hv
  | cons a t ih =>
    simp only [List.map_cons, List.nodup_cons] at hnd
    rw [List.foldl_cons]
    rcases List.mem_cons.1 hv with e | e
    · subst e
      rw [scan_get?_of_no_visit sha1 t _ v.path
        (fun w hw _ hp => hnd.1 (hp ▸ List.mem_map_of_mem Visit.path hw)),
        if_pos hk, store.get?_set, if_pos rfl]
    · exact ih _ hnd.2 e

theorem scan_contains_of_visit (sha1 : Bytes → Bytes) (visits : List Visit) (s0 : store) :
    ∀ v ∈ visits, v.kept = true →
      (visits.foldl
        (fun s v => if v.kept = true then s.set v.path (sha1 v.content) else s)
          s0).contains v.path = true := by
  induction visits generalizing s0 with
  | nil => intro v hv; simp at hv
  | cons a t ih =>
    intro v hv hk
    rw [List.foldl_cons]
    rcases List.mem_cons.1 hv with e | e
    · subst e
      by_cases hex : ∃ w ∈ t, w.kept = true ∧ w.path = v.path
      · obtain ⟨w, hw, hwk, hwp⟩ := hex
        rw [← hwp]
        exact ih _ w hw hwk
      · unfold store.contains
        rw [scan_get?_of_no_visit sha1 t _ v.path
          (fun w hw hwk hp => hex ⟨w, hw, hwk, hp⟩), if_pos hk, store.get?_set, if_pos rfl]
        rfl
    · exact ih _ v e hk

theorem kept_iff (v : Visit) :
    v.kept = true ↔
      v.info = some false ∧ stringsContains v.path (ascii "freezeVersions") = false := by
  unfold Visit.kept
  cases v.info with
  | none => simp
  | some b => cases b <;> simp

theorem getFromCurrent_of_stat (sha1 : Bytes → Bytes) (join : Bytes → Bytes → Bytes)
    (tree : Node) (path : Bytes) (hstat : ∀ v ∈ walk join path tree, v.info ≠ none) :
    getFromCurrent sha1 join tree path =
      some ((walk join path tree).foldl
        (fun s v => if v.kept = true then s.set v.path (sha1 v.content) else s) store.empty) :=
  scan_total sha1 (walk join path tree) store.empty hstat

/-! ## C8 and C9: the entries of the scan -/

/-- C8 (as stated, refuted): the file `r/freezeVersions.md` is a non-directory
entry reached by the walk from `r`, it is neither the snapshot directory
`r/.freezeVersions` nor beneath it, and yet the store has no entry for it. -/
theorem file_named_like_snapshot_dir_is_skipped :
    (walk joinSlash (ascii "r") notesTree).any
        (fun v => v.path == ascii "r/freezeVersions.md" && v.info == some false) = true ∧
      inSnapshotDir (ascii "r") (ascii "r/freezeVersions.md") = false ∧
      (getFromCurrent sha1Sample joinSlash notesTree (ascii "r")).map
        (fun S => S.contains (ascii "r/freezeVersions.md")) = some false := by
  decide

/-- C8 (amended): when `os.Lstat` describes every entry the walk reaches,
`getFromCurrent` returns a store whose keys are exactly the paths of the
non-directory entries reached whose path does not contain `freezeVersions`; each
digest is that of the bytes read from an entry of that path, and from the entry
itself when the paths walked are pairwise distinct. -/
theorem getFromCurrent_keys (sha1 : Bytes → Bytes) (join : Bytes → Bytes → Bytes)
    (tree : Node) (path : Bytes) (hstat : ∀ v ∈ walk join path tree, v.info ≠ none) :
    ∃ S, getFromCurrent sha1 join tree path = some S ∧
      (∀ p, S.contains p = true ↔
        ∃ v ∈ walk join path tree, v.path = p ∧ v.info = some false ∧
          stringsContains p (ascii "freezeVersions") = false) ∧
      (∀ p d, S.get? p = some d →
        ∃ v ∈ walk join path tree, v.path = p ∧ v.info = some false ∧ d = sha1 v.content) ∧
      (((walk join path tree).map Visit.path).Nodup →
        ∀ v ∈ walk join path tree, v.info = some false →
          stringsContains v.path (ascii "freezeVersions") = false →
          S.get? v.path = some (sha1 v.content)) := by
  refine ⟨_, getFromCurrent_of_stat sha1 join tree path hstat, ?_, ?_, ?_⟩
  · intro p
    constructor
    · intro hc
      obtain ⟨d, hd⟩ := Option.isSome_iff_exists.1 hc
      rcases scan_get?_cases sha1 _ _ p d hd with h0 | ⟨v, hv, hk, hp, _⟩
      · simp [store.get?, store.empty] at h0
      · obtain ⟨hi, hf⟩ := (kept_iff v).1 hk
        exact ⟨v, hv, hp, hi, hp ▸ hf⟩
    · rintro ⟨v, hv, hp, hi, hf⟩
      subst hp
      exact scan_contains_of_visit sha1 _ _ v hv ((kept_iff v).2 ⟨hi, hf⟩)
  · intro p d hd
    rcases scan_get?_cases sha1 _ _ p d hd with h0 | ⟨v, hv, hk, hp, hd'⟩
    · simp [store.get?, store.empty] at h0
    · exact ⟨v, hv, hp, ((kept_iff v).1 hk).1, hd'⟩
  · intro hnd v hv hi hf
    exact scan_get?_of_visit sha1 _ _ hnd v hv ((kept_iff v).2 ⟨hi, hf⟩)

/-- C8 (amended), at a concrete input: the scan of `helloTree` from `r`. -/
theorem getFromCurrent_keys_witness :
    ∃ S, getFromCurrent sha1Sample joinSlash helloTree (ascii "r") = some S ∧
      (∀ p, S.contains p = true ↔
        ∃ v ∈ walk joinSlash (ascii "r") helloTree, v.path = p ∧ v.info = some false ∧
          stringsContains p (ascii "freezeVersions") = false) ∧
      (∀ p d, S.get? p = some d →
        ∃ v ∈ walk joinSlash (ascii "r") helloTree, v.path = p ∧ v.info = some false ∧
          d = sha1Sample v.content) ∧
      (((walk joinSlash (ascii "r") helloTree).map Visit.path).Nodup →
        ∀ v ∈ walk joinSlash (ascii "r") helloTree, v.info = some false →
          stringsContains v.path (ascii "freezeVersions") = false →
          S.get? v.path = some (sha1Sample v.content)) :=
  getFromCurrent_keys sha1Sample joinSlash helloTree (ascii "r") (by decide)

/-- C9 (as stated, refuted): the read of `r/locked` fails, and the store
returned by the scan still has an entry for it, holding the digest of the empty
input. -/
theorem unreadable_file_gets_an_entry :
    (walk joinSlash (ascii "r") lockedTree).any
        (fun v => v.path == ascii "r/locked" && !v.readOk) = true ∧
      (getFromCurrent sha1Sample joinSlash lockedTree (ascii "r")).map
        (fun S => S.get? (ascii "r/locked")) = some (some emptyDigest) := by
  decide

/-- C9 (amended): when `os.Lstat` describes every entry the walk reaches, the
scan is not aborted; a non-directory entry whose read fails has an entry in the
store all the same, unless its path contains `freezeVersions`, and so has every
such entry whose read succeeds; when the paths walked are pairwise distinct the
entry holds the digest of the bytes the read returned, which for a failed read
are those read before the failure. -/
theorem getFromCurrent_records_unreadable (sha1 : Bytes → Bytes)
    (join : Bytes → Bytes → Bytes) (tree : Node) (path : Bytes)
    (hstat : ∀ v ∈ walk join path tree, v.info ≠ none) :
    ∃ S, getFromCurrent sha1 join tree path = some S ∧
      (∀ v ∈ walk join path tree, v.info = some false → v.readOk = false →
        stringsContains v.path (ascii "freezeVersions") = false →
        S.contains v.path = true ∧
          (((walk join path tree).map Visit.path).Nodup →
            S.get? v.path = some (sha1 v.content))) ∧
      (∀ v ∈ walk join path tree, v.info = some false → v.readOk = true →
        stringsContains v.path (ascii "freezeVersions") = false →
        S.contains v.path = true ∧
          (((walk join path tree).map Visit.path).Nodup →
            S.get? v.path = some (sha1 v.content))) := by
  refine ⟨_, getFromCurrent_of_stat sha1 join tree path hstat, ?_, ?_⟩ <;>
  · intro v hv hi _ hf
    have hk := (kept_iff v).2 ⟨hi, hf⟩
    exact ⟨scan_contains_of_visit sha1 _ _ v hv hk,
      fun hnd => scan_get?_of_visit sha1 _ _ hnd v hv hk⟩

/-- C9 (amended), at a concrete input: the scan of `lockedTree` from `r`, whose
file `r/locked` cannot be read. -/
theorem getFromCurrent_records_unreadable_witness :
    ∃ S, getFromCurrent sha1Sample joinSlash lockedTree (ascii "r") = some S ∧
      (∀ v ∈ walk joinSlash (ascii "r") lockedTree, v.info = some false → v.readOk = false →
        stringsContains v.path (ascii "freezeVersions") = false →
        S.contains v.path = true ∧
          (((walk joinSlash (ascii "r") lockedTree).map Visit.path).Nodup →
            S.get? v.path = some (sha1Sample v.content))) ∧
      (∀ v ∈ walk joinSlash (ascii "r") lockedTree, v.info = some false → v.readOk = true →
        stringsContains v.path (ascii "freezeVersions") = false →
        S.contains v.path = true ∧
          (((walk joinSlash (ascii "r") lockedTree).map Visit.path).Nodup →
            S.get? v.path = some (sha1Sample v.content))) :=
  getFromCurrent_records_unreadable sha1Sample joinSlash lockedTree (ascii "r") (by decide)

/-! ## C4 at a concrete input -/

/-- C4, at a concrete input: the path `r/f`, a key of `helloStore`, against the
empty store. -/
theorem checkAndDisplayDiff_exactly_one_class_witness :
    (helloStore.contains (ascii "r/f") = true ∨ store.empty.contains (ascii "r/f") = true) ∧
      (linesAbout (checkAndDisplayDiff helloStore store.empty) (ascii "r/f")).1 +
          (linesAbout (checkAndDisplayDiff helloStore store.empty) (ascii "r/f")).2.1 +
          (linesAbout (checkAndDisplayDiff helloStore store.empty) (ascii "r/f")).2.2 ≤ 1 :=
  ⟨by decide,
    (checkAndDisplayDiff_exactly_one_class helloStore store.empty (ascii "r/f")
      (by decide)).2.1⟩

/-! ## C11 and C12: a store against itself, and two stores swapped -/

theorem diffBefore_self (S : store) (e : Bytes × Bytes) (he : e ∈ S.entries) :
    diffBefore S e = none := by
  have hg : S.get? e.1 = some e.2 := (S.get?_eq_some_iff e.1 e.2).2 he
  unfold diffBefore
  rw [hg]
  simp

theorem diffAfter_self (S : store) (e : Bytes × Bytes) (he : e ∈ S.entries) :
    diffAfter S e = none := by
  have hg : S.get? e.1 = some e.2 := (S.get?_eq_some_iff e.1 e.2).2 he
  unfold diffAfter
  rw [hg]

theorem filterMap_eq_nil_of_none {α β : Type} (f : α → Option β) (l : List α)
    (h : ∀ a ∈ l, f a = none) : l.filterMap f = [] := by
  induction l with
  | nil => rfl
  | cons a t ih =>
    rw [List.filterMap_cons_none (h a (List.mem_cons_self a t))]
    exact ih (fun b hb => h b (List.mem_cons_of_mem a hb))

/-- C11: `checkAndDisplayDiff(S, S)` prints nothing at all, so it reports no
changed, no deleted and no added path. -/
theorem checkAndDisplayDiff_self (S : store) : checkAndDisplayDiff S S = [] := by
  unfold checkAndDisplayDiff
  rw [filterMap_eq_nil_of_none _ _ (diffBefore_self S),
    filterMap_eq_nil_of_none _ _ (diffAfter_self S)]
  rfl

/-- C12: a path is reported as added by `checkAndDisplayDiff(A, B)` exactly when
it is reported as deleted by `checkAndDisplayDiff(B, A)`, and as deleted for
`(A, B)` exactly when it is reported as added for `(B, A)`. -/
theorem checkAndDisplayDiff_swap (A B : store) (p : Bytes) :
    (addedLine p ∈ checkAndDisplayDiff A B ↔ deletedLine p ∈ checkAndDisplayDiff B A) ∧
      (deletedLine p ∈ checkAndDisplayDiff A B ↔ addedLine p ∈ checkAndDisplayDiff B A) := by
  rw [mem_diff_added, mem_diff_deleted, mem_diff_deleted, mem_diff_added]
  exact ⟨Iff.rfl, Iff.rfl⟩

/-! ## C17: the first run -/

theorem checkAndDisplayDiff_empty_left (S : store) :
    checkAndDisplayDiff store.empty S = S.entries.map (fun e => addedLine e.1) := by
  unfold checkAndDisplayDiff
  have h : S.entries.filterMap (diffAfter store.empty) =
      S.entries.map (fun e => addedLine e.1) := by
    induction S.entries with
    | nil => rfl
    | cons a t ih =>
      have ha : diffAfter store.empty a = some (addedLine a.1) := rfl
      rw [List.filterMap_cons_some ha, ih, List.map_cons]
  rw [h]
  rfl

theorem openMostRecent_of_no_listing (parse : Bytes → Option Int)
    (join : Bytes → Bytes → Bytes) (fs : FileSys) (path : Bytes)
    (h : fs.readDir path = none ∨ fs.readDir path = some []) :
    openMostRecent parse join fs path = some store.empty := by
  unfold openMostRecent
  rcases h with h | h <;> simp [h]

/-- C17: when the snapshot directory cannot be listed or is empty,
`openMostRecent` returns the empty store, and the diff of that store against any
store `S` prints the added line of each key of `S`, once, and nothing else: no
path is reported as deleted or changed. -/
theorem first_run_reports_every_key_added (parse : Bytes → Option Int)
    (join : Bytes → Bytes → Bytes) (fs : FileSys) (path : Bytes)
    (h : fs.readDir path = none ∨ fs.readDir path = some []) :
    openMostRecent parse join fs path = some store.empty ∧
      ∀ S : store,
        checkAndDisplayDiff store.empty S = S.entries.map (fun e => addedLine e.1) ∧
        ∀ p, (addedLine p ∈ checkAndDisplayDiff store.empty S ↔ S.contains p = true) ∧
          deletedLine p ∉ checkAndDisplayDiff store.empty S ∧
          changedLine p ∉ checkAndDisplayDiff store.empty S := by
  refine ⟨openMostRecent_of_no_listing parse join fs path h, ?_⟩
  intro S
  refine ⟨checkAndDisplayDiff_empty_left S, ?_⟩
  intro p
  have he : store.empty.contains p = false := rfl
  have hg : store.empty.get? p = none := rfl
  refine ⟨?_, ?_, ?_⟩
  · rw [mem_diff_added, he]
    simp
  · rw [mem_diff_deleted, he]
    simp
  · rw [mem_diff_changed, hg]
    simp

/-- C17, at a concrete input: a disk without the snapshot directory. -/
theorem first_run_reports_every_key_added_witness :
    emptyDisk.readDir snapDir = none ∧
      openMostRecent parseSample joinSlash emptyDisk snapDir = some store.empty ∧
      checkAndDisplayDiff store.empty helloStore = [addedLine (ascii "r/f")] :=
  ⟨rfl,
    (first_run_reports_every_key_added parseSample joinSlash emptyDisk snapDir
      (Or.inl rfl)).1,
    ((first_run_reports_every_key_added parseSample joinSlash emptyDisk snapDir
      (Or.inl rfl)).2 helloStore).1⟩

/-! ## C15: the bytes written by `saveToFile` -/

theorem snapshotBytes_eq_flatten (S : store) :
    snapshotBytes S = (S.entries.map recordOf).flatten := by
  unfold snapshotBytes
  induction S.entries with
  | nil => rfl
  | cons a t ih =>
    rw [foldl_snapshot_cons, ih, List.map_cons, List.flatten_cons]
    unfold recordOf
    simp only [List.append_assoc, List.singleton_append, List.cons_append, List.nil_append]

theorem saveToFile_fileBytes (join : Bytes → Bytes → Bytes) (stamp : Bytes) (S : store)
    (dir : Bytes) (fs : FileSys) (p : Bytes) :
    (saveToFile join stamp S dir fs).fileBytes p =
      if fs.creatable (join dir stamp) = true ∧ p = join dir stamp then
        some (snapshotBytes S)
      else fs.fileBytes p := by
  unfold saveToFile
  by_cases hc : fs.creatable (join dir stamp) = true
  · by_cases hp : p = join dir stamp
    · simp [hc, hp]
    · simp [hc, hp]
  · simp [hc]

theorem saveToFile_readDir (join : Bytes → Bytes → Bytes) (stamp : Bytes) (S : store)
    (dir : Bytes) (fs : FileSys) (d : Bytes) :
    (saveToFile join stamp S dir fs).readDir d =
      if fs.creatable (join dir stamp) = true ∧ d = dir then
        (fs.readDir d).map (insertName stamp)
      else fs.readDir d := by
  unfold saveToFile
  by_cases hc : fs.creatable (join dir stamp) = true
  · by_cases hd : d = dir
    · simp [hc, hd]
    · simp [hc, hd]
  · simp [hc]

theorem saveToFile_creatable (join : Bytes → Bytes → Bytes) (stamp : Bytes) (S : store)
    (dir : Bytes) (fs : FileSys) :
    (saveToFile join stamp S dir fs).creatable = fs.creatable := by
  unfold saveToFile
  by_cases hc : fs.creatable (join dir stamp) = true
  · simp [hc]
  · simp [hc]

/-- C15: the bytes `saveToFile` writes are the records of the entries of the
store, concatenated in the order the loop enumerates them: each record is the
path, the separator, the digest bytes as they are and a line feed; the entries
enumerated are those of the store, each once.  These bytes become the content
of the file created, when it can be created, and no other file changes. -/
theorem saveToFile_writes_records (join : Bytes → Bytes → Bytes) (stamp : Bytes) (S : store)
    (dir : Bytes) (fs : FileSys) :
    snapshotBytes S =
        (S.entries.map (fun e => e.1 ++ [seperator] ++ e.2 ++ [newline])).flatten ∧
      (S.entries.map Prod.fst).Nodup ∧
      (∀ k d, (k, d) ∈ S.entries ↔ S.get? k = some d) ∧
      ∀ p, (saveToFile join stamp S dir fs).fileBytes p =
        if fs.creatable (join dir stamp) = true ∧ p = join dir stamp then
          some (snapshotBytes S)
        else fs.fileBytes p :=
  ⟨snapshotBytes_eq_flatten S, S.nodup, fun k d => (S.get?_eq_some_iff k d).symm,
    saveToFile_fileBytes join stamp S dir fs⟩

/-! ## C13: two snapshots written within the same second -/

theorem insertName_idem (name : Bytes) (names : List Bytes) :
    insertName name (insertName name names) = insertName name names := by
  induction names with
  | nil => simp [insertName]
  | cons n ns ih =>
    by_cases h1 : name = n
    · simp [insertName, h1]
    · by_cases h2 : stringLess name n = true
      · simp [insertName, h1, h2]
      · simp only [insertName, h1, h2, if_false, Bool.false_eq_true, ih]

/-- C13 (as stated, refuted): `helloStore` and then `emptyFileStore` are saved
into the same directory under the same file name `stampA`: after the second
call the file holds the bytes of the second store, which differ from those the
first call wrote, and the directory lists a single snapshot. -/
theorem second_save_replaces_first :
    (saveToFile joinSlash stampA helloStore snapDir (freshDisk snapDir)).fileBytes
        (joinSlash snapDir stampA) = some (snapshotBytes helloStore) ∧
      (saveToFile joinSlash stampA emptyFileStore snapDir
        (saveToFile joinSlash stampA helloStore snapDir (freshDisk snapDir))).fileBytes
          (joinSlash snapDir stampA) = some (snapshotBytes emptyFileStore) ∧
      snapshotBytes emptyFileStore ≠ snapshotBytes helloStore ∧
      (saveToFile joinSlash stampA emptyFileStore snapDir
        (saveToFile joinSlash stampA helloStore snapDir (freshDisk snapDir))).readDir
          snapDir = some [stampA] := by
  decide

/-- C13 (amended): after two `saveToFile` calls whose clock readings render to
the same file name, the file of that name holds the bytes of the second store;
the directory lists what it listed after the first call, that name once more
not being added; every other file and every other directory is as it was
before the two calls. -/
theorem saveToFile_twice_same_stamp (join : Bytes → Bytes → Bytes) (stamp : Bytes)
    (S1 S2 : store) (dir : Bytes) (fs : FileSys)
    (hc : fs.creatable (join dir stamp) = true) :
    (saveToFile join stamp S2 dir (saveToFile join stamp S1 dir fs)).fileBytes
        (join dir stamp) = some (snapshotBytes S2) ∧
      (saveToFile join stamp S2 dir (saveToFile join stamp S1 dir fs)).readDir dir =
        (saveToFile join stamp S1 dir fs).readDir dir ∧
      (saveToFile join stamp S1 dir fs).readDir dir =
        (fs.readDir dir).map (insertName stamp) ∧
      (∀ p, p ≠ join dir stamp →
        (saveToFile join stamp S2 dir (saveToFile join stamp S1 dir fs)).fileBytes p =
          fs.fileBytes p) ∧
      (∀ d, d ≠ dir →
        (saveToFile join stamp S2 dir (saveToFile join stamp S1 dir fs)).readDir d =
          fs.readDir d) := by
  have hc' : (saveToFile join stamp S1 dir fs).creatable (join dir stamp) = true := by
    rw [saveToFile_creatable]
    exact hc
  refine ⟨?_, ?_, ?_, ?_, ?_⟩
  · rw [saveToFile_fileBytes, if_pos ⟨hc', rfl⟩]
  · rw [saveToFile_readDir, if_pos ⟨hc', rfl⟩, saveToFile_readDir, if_pos ⟨hc, rfl⟩]
    cases fs.readDir dir with
    | none => rfl
    | some names => simp [insertName_idem]
  · rw [saveToFile_readDir, if_pos ⟨hc, rfl⟩]
  · intro p hp
    rw [saveToFile_fileBytes, if_neg (fun h => hp h.2), saveToFile_fileBytes,
      if_neg (fun h => hp h.2)]
  · intro d hd
    rw [saveToFile_readDir, if_neg (fun h => hd h.2), saveToFile_readDir,
      if_neg (fun h => hd h.2)]

/-- C13 (amended), at a concrete input: `helloStore`, then `emptyFileStore`,
saved as `stampA` on a disk with an empty snapshot directory. -/
theorem saveToFile_twice_same_stamp_witness :
    (saveToFile joinSlash stampA emptyFileStore snapDir
        (saveToFile joinSlash stampA helloStore snapDir (freshDisk snapDir))).fileBytes
          (joinSlash snapDir stampA) = some (snapshotBytes emptyFileStore) :=
  (saveToFile_twice_same_stamp joinSlash stampA helloStore emptyFileStore snapDir
    (freshDisk snapDir) (by decide)).1

/-! ## C18: the round trip of storable entries -/

/-- C18: when no path of the store holds a separator or a line feed, no digest
holds a separator or a line feed or ends with a carriage return, and every line
is shorter than `maxScanTokenSize`, `openFromFile` applied to the file that
`saveToFile` writes succeeds and returns a store equal to the one saved. -/
theorem roundtrip_of_storable (join : Bytes → Bytes → Bytes) (stamp : Bytes) (S : store)
    (dir : Bytes) (fs : FileSys) (hc : fs.creatable (join dir stamp) = true)
    (h : ∀ e ∈ S.entries, Storable e) :
    ∃ T, openFromFile (saveToFile join stamp S dir fs) (join dir stamp) = some T ∧
      T.Equiv S := by
  rw [openFromFile_saveToFile join stamp S dir fs hc]
  exact readStore_snapshotBytes S h

/-- C18, at a concrete input: `emptyFileStore`, saved as `stampA`. -/
theorem roundtrip_of_storable_witness :
    ∃ T, openFromFile (saveToFile joinSlash stampA emptyFileStore snapDir (freshDisk snapDir))
        (joinSlash snapDir stampA) = some T ∧ T.Equiv emptyFileStore :=
  roundtrip_of_storable joinSlash stampA emptyFileStore snapDir (freshDisk snapDir)
    (by decide) (by decide)

/-! ## C14: a root that does not exist -/

/-- C14 (the code breaks it): for a root that `os.Lstat` cannot describe,
`filepath.Walk` calls `store.add` with a nil `info`, `info.IsDir()` panics and
`getFromCurrent` returns no store. -/
theorem getFromCurrent_missing_root (sha1 : Bytes → Bytes) (join : Bytes → Bytes → Bytes)
    (path : Bytes) : getFromCurrent sha1 join Node.noStat path = none := by
  rfl

/-! ## C16: the keys of the scan -/

theorem info_of_scan_some (sha1 : Bytes → Bytes) (visits : List Visit) (s0 S : store)
    (h : visits.foldlM (store.add sha1) s0 = some S) : ∀ v ∈ visits, v.info ≠ none := by
  induction visits generalizing s0 with
  | nil => intro v hv; simp at hv
  | cons a t ih =>
    rw [List.foldlM_cons] at h
    have ha : a.info ≠ none := by
      intro hn
      have : store.add sha1 s0 a = none := by
        unfold store.add
        rw [hn]
      rw [this] at h
      exact absurd h (by simp)
    rw [add_of_info sha1 s0 a ha] at h
    intro v hv
    rcases List.mem_cons.1 hv with e | e
    · exact e ▸ ha
    · exact ih _ h v e

theorem isPrefixOf_tails_any (t p : Bytes) (sub : Bytes)
    (h : stringsContains t sub = true) (hp : t.isPrefixOf p = true) :
    stringsContains p sub = true := by
  obtain ⟨r, rfl⟩ := List.isPrefixOf_iff_prefix.1 hp
  unfold stringsContains at h ⊢
  rw [List.any_eq_true] at h ⊢
  obtain ⟨u, hu, hsub⟩ := h
  obtain ⟨w, hw⟩ := (List.mem_tails u t).1 hu
  refine ⟨u ++ r, (List.mem_tails _ _).2 ⟨w, by rw [← hw, List.append_assoc]⟩, ?_⟩
  obtain ⟨x, rfl⟩ := List.isPrefixOf_iff_prefix.1 hsub
  exact List.isPrefixOf_iff_prefix.2 ⟨x ++ r, by rw [List.append_assoc]⟩

theorem stringsContains_append_left (a b sub : Bytes) (h : stringsContains b sub = true) :
    stringsContains (a ++ b) sub = true := by
  unfold stringsContains at h ⊢
  rw [List.any_eq_true] at h ⊢
  obtain ⟨u, hu, hsub⟩ := h
  obtain ⟨w, hw⟩ := (List.mem_tails u b).1 hu
  exact ⟨u, (List.mem_tails _ _).2 ⟨a ++ w, by rw [← hw, List.append_assoc]⟩, hsub⟩

theorem stringsContains_of_inSnapshotDir (root p : Bytes)
    (h : inSnapshotDir root p = true) :
    stringsContains p (ascii "freezeVersions") = true := by
  have hsnap : stringsContains (joinSlash root (ascii ".freezeVersions"))
      (ascii "freezeVersions") = true := by
    unfold joinSlash
    rw [List.append_assoc]
    exact stringsContains_append_left root _ _ (by decide)
  unfold inSnapshotDir at h
  rw [Bool.or_eq_true] at h
  rcases h with h | h
  · rw [beq_iff_eq] at h
    rw [h]
    exact hsnap
  · refine isPrefixOf_tails_any _ p _ ?_ h
    have : stringsContains
        ((joinSlash root (ascii ".freezeVersions") ++ [47]) ++ [])
        (ascii "freezeVersions") = true :=
      isPrefixOf_tails_any _ _ _ hsnap
        (List.isPrefixOf_iff_prefix.2 ⟨[47], by simp⟩)
    simpa using this

/-- C16: no key of a store returned by `getFromCurrent` contains the substring
`freezeVersions`, so none is the path of the snapshot directory of the root or
of anything beneath it; every key is the path of an entry of the walk that is
no directory, and when the paths walked are pairwise distinct no directory has
that path.  A store is returned whenever `os.Lstat` describes every entry
reached. -/
theorem getFromCurrent_keys_outside_snapshot_dir (sha1 : Bytes → Bytes)
    (join : Bytes → Bytes → Bytes) (tree : Node) (root : Bytes) :
    ((∀ v ∈ walk join root tree, v.info ≠ none) →
        ∃ S, getFromCurrent sha1 join tree root = some S) ∧
      ∀ S, getFromCurrent sha1 join tree root = some S →
        ∀ p, S.contains p = true →
          stringsContains p (ascii "freezeVersions") = false ∧
          inSnapshotDir root p = false ∧
          (∃ v ∈ walk join root tree, v.path = p ∧ v.info = some false) ∧
          (((walk join root tree).map Visit.path).Nodup →
            ∀ v ∈ walk join root tree, v.path = p → v.info = some false) := by
  refine ⟨fun hstat => ⟨_, getFromCurrent_of_stat sha1 join tree root hstat⟩, ?_⟩
  intro S hS p hp
  have hstat := info_of_scan_some sha1 _ _ _ hS
  rw [getFromCurrent_of_stat sha1 join tree root hstat] at hS
  have hS' := Option.some.inj hS
  obtain ⟨d, hd⟩ := Option.isSome_iff_exists.1 hp
  rw [← hS'] at hd
  rcases scan_get?_cases sha1 _ _ p d hd with h0 | ⟨v, hv, hk, hvp, _⟩
  · simp [store.get?, store.empty] at h0
  · obtain ⟨hi, hf⟩ := (kept_iff v).1 hk
    have hfp : stringsContains p (ascii "freezeVersions") = false := hvp ▸ hf
    refine ⟨hfp, ?_, ⟨v, hv, hvp, hi⟩, ?_⟩
    · cases hin : inSnapshotDir root p with
      | false => rfl
      | true =>
        rw [stringsContains_of_inSnapshotDir root p hin] at hfp
        exact absurd hfp (by simp)
    · intro hnd w hw hwp
      have hvw : v = w := by
        have hmap : (walk join root tree).map Visit.path |>.Nodup := hnd
        exact List.inj_on_of_nodup_map hmap hv hw (hvp.trans hwp.symm)
      exact hvw ▸ hi

/-- C16, at a concrete input: the scan of `nestedTree` from `r` returns the store
whose only key is `r/f`. -/
theorem getFromCurrent_keys_outside_snapshot_dir_witness :
    (getFromCurrent sha1Sample joinSlash nestedTree (ascii "r")).map store.entries =
        some [(ascii "r/f", helloDigest)] ∧
      ∀ S, getFromCurrent sha1Sample joinSlash nestedTree (ascii "r") = some S →
        ∀ p, S.contains p = true →
          stringsContains p (ascii "freezeVersions") = false ∧
          inSnapshotDir (ascii "r") p = false ∧
          (∃ v ∈ walk joinSlash (ascii "r") nestedTree, v.path = p ∧ v.info = some false) ∧
          (((walk joinSlash (ascii "r") nestedTree).map Visit.path).Nodup →
            ∀ v ∈ walk joinSlash (ascii "r") nestedTree, v.path = p → v.info = some false) :=
  ⟨by decide,
    (getFromCurrent_keys_outside_snapshot_dir sha1Sample joinSlash nestedTree (ascii "r")).2⟩

/-! ## C19: when the selection succeeds, and which entry it takes -/

theorem latestLoop_first_max_aux (parse : Bytes → Option Int) (files : List Bytes)
    (acc : Int × Option Bytes) :
    (files.foldl (fun acc name =>
          if (parse name).getD 0 > acc.1 then ((parse name).getD 0, some name) else acc) acc =
        acc ∧ ∀ m ∈ files, (parse m).getD 0 ≤ acc.1) ∨
      ∃ pre n post, files = pre ++ n :: post ∧
        files.foldl (fun acc name =>
          if (parse name).getD 0 > acc.1 then ((parse name).getD 0, some name) else acc) acc =
            ((parse n).getD 0, some n) ∧
        acc.1 < (parse n).getD 0 ∧
        (∀ m ∈ pre, (parse m).getD 0 < (parse n).getD 0) ∧
        (∀ m ∈ post, (parse m).getD 0 ≤ (parse n).getD 0) := by
  induction files generalizing acc with
  | nil => exact Or.inl ⟨rfl, fun m hm => by simp at hm⟩
  | cons a t ih =>
    simp only [List.foldl_cons]
    by_cases h : (parse a).getD 0 > acc.1
    · rw [if_pos h]
      right
      rcases ih ((parse a).getD 0, some a) with ⟨h1, h2⟩ | ⟨pre, n, post, h1, h2, h3, h4, h5⟩
      · exact ⟨[], a, t, rfl, h1, h, fun m hm => by simp at hm, h2⟩
      · refine ⟨a :: pre, n, post, by rw [h1]; rfl, h2, lt_trans h h3, ?_, h5⟩
        intro m hm
        rcases List.mem_cons.1 hm with e | e
        · exact e ▸ h3
        · exact h4 m e
    · rw [if_neg h]
      rcases ih acc with ⟨h1, h2⟩ | ⟨pre, n, post, h1, h2, h3, h4, h5⟩
      · left
        refine ⟨h1, ?_⟩
        intro m hm
        rcases List.mem_cons.1 hm with e | e
        · exact e ▸ not_lt.1 h
        · exact h2 m e
      · right
        refine ⟨a :: pre, n, post, by rw [h1]; rfl, h2, h3, ?_, h5⟩
        intro m hm
        rcases List.mem_cons.1 hm with e | e
        · exact e ▸ lt_of_le_of_lt (not_lt.1 h) h3
        · exact h4 m e

theorem latestLoop_first_max (parse : Bytes → Option Int) (files : List Bytes) (n : Bytes)
    (h : (latestLoop parse files).2 = some n) :
    ∃ pre post t, files = pre ++ n :: post ∧ parse n = some t ∧ 0 < t ∧
      (∀ m ∈ pre, (parse m).getD 0 < t) ∧ (∀ m ∈ post, (parse m).getD 0 ≤ t) := by
  rcases latestLoop_first_max_aux parse files (0, none) with
    ⟨h1, _⟩ | ⟨pre, k, post, h1, h2, h3, h4, h5⟩
  · have : latestLoop parse files = (0, none) := h1
    rw [this] at h
    exact absurd h (by simp)
  · have hl : latestLoop parse files = ((parse k).getD 0, some k) := h2
    rw [hl] at h
    have hk : k = n := Option.some.inj h
    subst hk
    refine ⟨pre, post, (parse k).getD 0, h1, ?_, h3, h4, h5⟩
    cases hp : parse k with
    | none => simp [hp] at h3
    | some t => simp

theorem derefsNil_eq_false_iff (parse : Bytes → Option Int) (files : List Bytes) :
    derefsNil parse files = false ↔
      files = [] ∨ ∃ n ∈ files, ∃ t, parse n = some t ∧ 0 < t := by
  unfold derefsNil
  cases files with
  | nil => simp
  | cons a t =>
    rcases latestLoop_cases parse (a :: t) with ⟨h0, hall⟩ | ⟨n, hn, tn, hl, hp, ht, _⟩
    · rw [h0]
      constructor
      · intro h
        simp at h
      · rintro (h | ⟨n, hn, tn, hp, ht⟩)
        · exact absurd h (by simp)
        · have := hall n hn
          rw [hp] at this
          exact absurd (lt_of_lt_of_le ht this) (lt_irrefl _)
    · rw [hl]
      simp only [Option.isNone_some, Bool.and_false, true_iff]
      exact Or.inr ⟨n, hn, tn, hp, ht⟩

/-- C19: `openMostRecent` avoids the nil dereference at `latestFileInfo.Name()`
exactly when the listing is empty or some name of it parses to a timestamp
strictly after the zero time; on an empty listing it returns the empty store,
where it dereferences nil it fails, and otherwise it loads the selected file,
whose timestamp is strictly later than that of every name before it in the
listing and at least that of every name after it: of several names with the
maximum timestamp the first in the listing is loaded. -/
theorem openMostRecent_safe_iff (parse : Bytes → Option Int) (join : Bytes → Bytes → Bytes)
    (fs : FileSys) (path : Bytes) :
    (derefsNil parse ((fs.readDir path).getD []) = false ↔
        (fs.readDir path).getD [] = [] ∨
          ∃ n ∈ (fs.readDir path).getD [], ∃ t, parse n = some t ∧ 0 < t) ∧
      ((fs.readDir path).getD [] = [] → openMostRecent parse join fs path = some store.empty) ∧
      (derefsNil parse ((fs.readDir path).getD []) = true →
        openMostRecent parse join fs path = none) ∧
      ∀ n, (fs.readDir path).getD [] ≠ [] →
        (latestLoop parse ((fs.readDir path).getD [])).2 = some n →
        openMostRecent parse join fs path = openFromFile fs (join path n) ∧
          ∃ pre post t, (fs.readDir path).getD [] = pre ++ n :: post ∧ parse n = some t ∧
            0 < t ∧ (∀ m ∈ pre, (parse m).getD 0 < t) ∧
            (∀ m ∈ post, (parse m).getD 0 ≤ t) := by
  refine ⟨derefsNil_eq_false_iff parse _, ?_, ?_, ?_⟩
  · intro h
    unfold openMostRecent
    simp [h]
  · intro h
    unfold derefsNil at h
    rw [Bool.and_eq_true] at h
    unfold openMostRecent
    have h1 : ¬ ((fs.readDir path).getD []).length = 0 := by simpa using h.1
    simp only [h1, if_false]
    cases hl : (latestLoop parse ((fs.readDir path).getD [])).2 with
    | none => rfl
    | some n =>
      rw [hl] at h
      simp at h
  · intro n hne hn
    refine ⟨?_, latestLoop_first_max parse _ n hn⟩
    unfold openMostRecent
    have h1 : ¬ ((fs.readDir path).getD []).length = 0 := by simpa using hne
    simp only [h1, if_false, hn]

/-- C19, at a concrete input: `stampB` is listed twice around `stampA` (as two
names could be that parse to the same instant); the first of the two is the one
selected and loaded. -/
theorem openMostRecent_safe_iff_witness :
    derefsNil parseSample [ascii "notes.txt", stampB, stampA, stampB] = false ∧
      derefsNil parseSample [ascii "notes.txt", zeroStamp] = true ∧
      openMostRecent parseSample joinSlash
          (diskWith snapDir [ascii "notes.txt", stampB, stampA, stampB] (ascii "r/f 1\n"))
          snapDir =
        openFromFile
          (diskWith snapDir [ascii "notes.txt", stampB, stampA, stampB] (ascii "r/f 1\n"))
          (joinSlash snapDir stampB) :=
  ⟨by decide, by decide,
    ((openMostRecent_safe_iff parseSample joinSlash
      (diskWith snapDir [ascii "notes.txt", stampB, stampA, stampB] (ascii "r/f 1\n"))
      snapDir).2.2.2 stampB (by decide) (by decide)).1⟩

end FileChangeTracker
